import Mathlib

/-!
Cyclomatic complexity analyzer (`analyzer.go`)

A shallow embedding of the analysis pass of `analyzer.go`:

* `add`      is `(*Complexity).add`,
* `report`   is `(*Complexity).report`,
* `callback` is the closure handed to `inspect.Nodes` inside `run`,
* `run`      is `run`.

The syntax tree is not produced by this package; it is received from the
inspector.  A syntax node is represented by the data the analyzer reads from
it (its dynamic type, `CaseClause.List`, `BinaryExpr.Op`, `FuncDecl.Name`,
`Pos()`), a unit is a forest of such nodes, and `Nodes` is the depth-first
push/pop walk of the inspector restricted to the registered node types.

`Complexity` is the Go type `int`.  A syntax tree that is held in memory has
far fewer than `2^63` nodes, so no addition performed by `add` can wrap; the
embedding therefore uses exact integers.
-/

namespace Cyclomatic

/-! ## Data model -/

/-- The binary operators of `go/token` that can be the `Op` of a
`BinaryExpr`. -/
inductive Token where
  | ADD | SUB | MUL | QUO | REM
  | AND | OR | XOR | SHL | SHR | AND_NOT
  | LAND | LOR
  | EQL | LSS | GTR | NEQ | LEQ | GEQ
  deriving DecidableEq, Repr

/-- An `*ast.Ident`: identifier nodes are compared by pointer. -/
structure Ident where
  ptr : Nat
  deriving DecidableEq, Repr

/-- An `ast.Expr` occurring in the `List` of a case clause. -/
structure Expr where
  ptr : Nat
  deriving DecidableEq, Repr

/-- An `ast.Stmt` occurring as the `Comm` of a communication clause. -/
structure Stmt where
  ptr : Nat
  deriving DecidableEq, Repr

/-- A `token.Pos`. -/
abbrev Pos := Nat

/-- A `*types.Func`: the object itself and what `Name()` returns. -/
structure Func where
  ptr : Nat
  name : String
  deriving DecidableEq, Repr

/-- A non-nil `types.Object`: either a `*types.Func` or an object of another
dynamic type (`*types.Var`, `*types.TypeName`, ...). -/
inductive Object where
  | ofFunc (f : Func)
  | other (kind : String)
  deriving DecidableEq, Repr

/-- The type `Complexity` (`type Complexity int`). -/
abbrev Complexity := Int

/-- An `ast.Node`, by dynamic type, with the fields read by the analyzer.
`CommClause.Comm` is `none` for the `default` arm of a `select`;
`CaseClause.List` is empty for the `default` arm of a `switch`. -/
inductive Node where
  | FuncDecl (Name : Ident) (pos : Pos)
  | FuncLit
  | IfStmt
  | ForStmt
  | RangeStmt
  | CaseClause (List : List Expr)
  | CommClause (Comm : Option Stmt)
  | BinaryExpr (Op : Token)
  | Other (kind : String)
  deriving DecidableEq, Repr

/-- A sequence of syntax trees: `cons n children siblings` is the tree with
root `n` and subtrees `children`, followed by the trees `siblings`. -/
inductive Forest where
  | nil : Forest
  | cons (n : Node) (children : Forest) (siblings : Forest) : Forest
  deriving DecidableEq, Repr

/-- A diagnostic handed to `pass.Reportf`. -/
structure Diagnostic where
  pos : Pos
  message : String
  deriving DecidableEq, Repr

/-- The variables the callback of `run` works on: the running total `c`, the
result mapping `acc`, and the two outputs of the pass, the facts handed to
`pass.ExportObjectFact` and the diagnostics handed to `pass.Reportf`, in the
order of the calls. -/
structure State where
  c : Complexity
  acc : Ident → Option Complexity
  facts : List (Func × Complexity)
  diags : List Diagnostic

/-! ## The analyzer -/

/-- The method `(*Complexity).add`: the new value of `*c`. -/
def add (c : Complexity) (n : Node) : Complexity :=
  match n with
  | Node.FuncDecl _ _ => 1
  | Node.IfStmt => c + 1
  | Node.ForStmt => c + 1
  | Node.CommClause _ => c + 1
  | Node.CaseClause l => c + (l.length : Int)
  | Node.BinaryExpr op =>
    match op with
    | Token.LAND => c + 1
    | Token.LOR => c + 1
    | _ => c
  | _ => c

/-- The message built by `pass.Reportf` from the format string
`"cyclomatic complexity of %s exceeded limit %d > %d"` and the arguments
`f.Name(), d, limit`. -/
def reportMessage (name : String) (d : Complexity) (limit : Int) : String :=
  "cyclomatic complexity of " ++ name ++ " exceeded limit " ++ toString d ++ " > " ++ toString limit

/-- The method `(*Complexity).report`.  `Defs` is `pass.TypesInfo.Defs`
(`none` when the identifier has no entry or a nil object).  The result is
`none` when the type assertion `o.(*types.Func)` panics. -/
def report (limit : Int) (Defs : Ident → Option Object) (s : State) (n : Node) : Option State :=
  match n with
  | Node.FuncDecl name pos =>
    let acc := fun k => if k = name then some s.c else s.acc k
    match Defs name with
    | some (Object.ofFunc f) =>
      let d := s.c
      let facts := s.facts ++ [(f, d)]
      if d > limit then
        some { c := s.c, acc := acc, facts := facts,
               diags := s.diags ++ [{ pos := pos, message := reportMessage f.name d limit }] }
      else
        some { c := s.c, acc := acc, facts := facts, diags := s.diags }
    | _ => none
  | _ => some s

/-- The method `(*Complexity).report` with the state of a panic kept: the
result is `Except.error` with the variables as they are when the type
assertion `o.(*types.Func)` panics (the store `acc[fd.Name] = *c` is already
done, `ExportObjectFact` and `Reportf` are not reached), and `Except.ok` with
the final variables when the method returns. -/
def reportEffects (limit : Int) (Defs : Ident → Option Object) (s : State) (n : Node) :
    Except State State :=
  match n with
  | Node.FuncDecl name pos =>
    let acc := fun k => if k = name then some s.c else s.acc k
    match Defs name with
    | some (Object.ofFunc f) =>
      let d := s.c
      let facts := s.facts ++ [(f, d)]
      if d > limit then
        Except.ok { c := s.c, acc := acc, facts := facts,
                    diags := s.diags ++ [{ pos := pos, message := reportMessage f.name d limit }] }
      else
        Except.ok { c := s.c, acc := acc, facts := facts, diags := s.diags }
    | _ => Except.error { c := s.c, acc := acc, facts := s.facts, diags := s.diags }
  | _ => Except.ok s

/-- The variables at the end of a call, whether it returned or panicked. -/
def stateOf : Except State State → State
  | Except.ok s => s
  | Except.error s => s

/-- The node types registered with `inspect.Nodes` in `run`. -/
def registered (n : Node) : Bool :=
  match n with
  | Node.FuncDecl _ _ => true
  | Node.IfStmt => true
  | Node.ForStmt => true
  | Node.CaseClause _ => true
  | Node.CommClause _ => true
  | Node.BinaryExpr _ => true
  | _ => false

/-- The walk of `Inspector.Nodes` for a callback that always returns `true`:
depth first, a node of a registered type is delivered once with `push = true`
before its children and once with `push = false` after them. -/
def Nodes (types : Node → Bool) : Forest → List (Node × Bool)
  | Forest.nil => []
  | Forest.cons n children siblings =>
    (if types n then (n, true) :: (Nodes types children ++ [(n, false)])
     else Nodes types children) ++ Nodes types siblings

/-- The closure passed to `inspect.Nodes` in `run`. -/
def callback (limit : Int) (Defs : Ident → Option Object) (s : State) (e : Node × Bool) :
    Option State :=
  if e.2 then some { c := add s.c e.1, acc := s.acc, facts := s.facts, diags := s.diags }
  else report limit Defs s e.1

/-- The callback applied to a sequence of events, stopping at a panic. -/
def runEvents (limit : Int) (Defs : Ident → Option Object) : State → List (Node × Bool) → Option State
  | s, [] => some s
  | s, e :: es =>
    match callback limit Defs s e with
    | some s1 => runEvents limit Defs s1 es
    | none => none

/-- The state at the start of `run`: `var c Complexity` and an empty map. -/
def State.init : State :=
  { c := 0, acc := fun _ => none, facts := [], diags := [] }

/-- The function `run` on the unit `files`: the final state, whose `acc` is the
returned result mapping, or `none` when a `report` panicked. -/
def run (limit : Int) (Defs : Ident → Option Object) (files : Forest) : Option State :=
  runEvents limit Defs State.init (Nodes registered files)

/-! ## Counting the nodes of a subtree -/

/-- The number of nodes of a forest that satisfy `p`. -/
def Forest.count (p : Node → Bool) : Forest → Nat
  | Forest.nil => 0
  | Forest.cons n children siblings =>
    (if p n then 1 else 0) + Forest.count p children + Forest.count p siblings

/-- The number of values listed by a node: the length of the list of a case
clause, zero for every other node. -/
def Node.listed : Node → Nat
  | Node.CaseClause l => l.length
  | _ => 0

/-- The sum, over the case clauses of a forest, of the number of values each
clause lists. -/
def Forest.caseValues : Forest → Nat
  | Forest.nil => 0
  | Forest.cons n children siblings =>
    n.listed + Forest.caseValues children + Forest.caseValues siblings

/-- Function declarations. -/
def Node.isFuncDecl : Node → Bool
  | Node.FuncDecl _ _ => true
  | _ => false

/-- If statements. -/
def Node.isIf : Node → Bool
  | Node.IfStmt => true
  | _ => false

/-- Three-clause and condition-only loops (`*ast.ForStmt`). -/
def Node.isFor : Node → Bool
  | Node.ForStmt => true
  | _ => false

/-- Range loops (`*ast.RangeStmt`). -/
def Node.isRange : Node → Bool
  | Node.RangeStmt => true
  | _ => false

/-- Case clauses of a switch. -/
def Node.isCase : Node → Bool
  | Node.CaseClause _ => true
  | _ => false

/-- Communication clauses of a select. -/
def Node.isComm : Node → Bool
  | Node.CommClause _ => true
  | _ => false

/-- Binary expressions whose operator is `&&` or `||`. -/
def Node.isLogical : Node → Bool
  | Node.BinaryExpr Token.LAND => true
  | Node.BinaryExpr Token.LOR => true
  | _ => false

/-- Binary expressions, whatever the operator. -/
def Node.isBinary : Node → Bool
  | Node.BinaryExpr _ => true
  | _ => false

/-- The function declarations of a forest, in source order: identifier and
position. -/
def Forest.funcDecls : Forest → List (Ident × Pos)
  | Forest.nil => []
  | Forest.cons n children siblings =>
    (match n with
     | Node.FuncDecl name pos => [(name, pos)]
     | _ => []) ++ Forest.funcDecls children ++ Forest.funcDecls siblings

/-- The object is a `*types.Func`: the type assertion `o.(*types.Func)`
succeeds. -/
def isFunc : Option Object → Bool
  | some (Object.ofFunc _) => true
  | _ => false

/-- Every function declaration of the forest has an identifier that
`Defs` maps to a `*types.Func`. -/
def Forest.resolved (Defs : Ident → Option Object) (F : Forest) : Bool :=
  F.funcDecls.all (fun p => isFunc (Defs p.1))

/-- The running total after a sequence of events: only push events change
it. -/
def totalAfter (c : Complexity) : List (Node × Bool) → Complexity
  | [] => c
  | e :: es => totalAfter (if e.2 then add c e.1 else c) es

/-- The identifier and position of a function declaration. -/
def Node.decl : Node → Option (Ident × Pos)
  | Node.FuncDecl name pos => some (name, pos)
  | _ => none

/-- The exits of function declarations in a sequence of events, in order:
identifier, position, and the running total on arrival at the exit. -/
def exitLog (c : Complexity) : List (Node × Bool) → List (Ident × Pos × Complexity)
  | [] => []
  | e :: es =>
    if e.2 then exitLog (add c e.1) es
    else
      match e.1.decl with
      | some d => (d.1, d.2, c) :: exitLog c es
      | none => exitLog c es

/-- A mapping after the entries of an exit log have been stored in it, one
after the other. -/
def accOf (m : Ident → Option Complexity) : List (Ident × Pos × Complexity) → Ident → Option Complexity
  | [] => m
  | x :: xs => accOf (fun k => if k = x.1 then some x.2.2 else m k) xs

/-- The fact exported for an entry of an exit log. -/
def factOf (Defs : Ident → Option Object) (x : Ident × Pos × Complexity) : Option (Func × Complexity) :=
  match Defs x.1 with
  | some (Object.ofFunc f) => some (f, x.2.2)
  | _ => none

/-- The diagnostic, if any, for an entry of an exit log. -/
def diagOf (limit : Int) (Defs : Ident → Option Object) (x : Ident × Pos × Complexity) :
    Option Diagnostic :=
  match Defs x.1 with
  | some (Object.ofFunc f) =>
    if x.2.2 > limit then some { pos := x.2.1, message := reportMessage f.name x.2.2 limit }
    else none
  | _ => none

/-- A forest without decision points: no if statement, no for statement, no
communication clause, no case clause and no binary expression with operator
`&&` or `||`. -/
def Forest.plain (F : Forest) : Prop :=
  F.count Node.isIf = 0 ∧ F.count Node.isFor = 0 ∧ F.count Node.isComm = 0 ∧
    F.count Node.isCase = 0 ∧ F.count Node.isLogical = 0

/-- The events of one function declaration whose subtree yields the events
`body`: its enter event, `body`, its exit event. -/
def declEvents (name : Ident) (pos : Pos) (body : List (Node × Bool)) : List (Node × Bool) :=
  (Node.FuncDecl name pos, true) :: (body ++ [(Node.FuncDecl name pos, false)])

/-! ## Sample units -/

/-- A forest of `k` trees, each a copy of `t` followed by nothing. -/
def Forest.replicate (k : Nat) (n : Node) (children : Forest) : Forest :=
  match k with
  | 0 => Forest.nil
  | k + 1 => Forest.cons n children (Forest.replicate k n children)

/-- The declaration `func name(...) { body }` at position `pos`: the body is a
block statement. -/
def funcDecl (name : Ident) (pos : Pos) (body : Forest) (siblings : Forest) : Forest :=
  Forest.cons (Node.FuncDecl name pos) (Forest.cons (Node.Other "BlockStmt") body Forest.nil) siblings

/-- A type-checker table: identifier 1 is the function `f`, identifier 2 the
function `g`, identifier 3 a variable, and nothing else is defined. -/
def sampleDefs : Ident → Option Object :=
  fun i =>
    if i.ptr = 1 then some (Object.ofFunc { ptr := 1, name := "f" })
    else if i.ptr = 2 then some (Object.ofFunc { ptr := 2, name := "g" })
    else if i.ptr = 3 then some (Object.other "Var")
    else none

/-- Eleven if statements in sequence, each `if x == i { }`. -/
def elevenIfs : Forest :=
  Forest.replicate 11 Node.IfStmt
    (Forest.cons (Node.BinaryExpr Token.EQL) Forest.nil
      (Forest.cons (Node.Other "BlockStmt") Forest.nil Forest.nil))

/-- The unit `func f() { eleven ifs }` at position 100 followed by
`func g() { }` at position 200. -/
def sampleUnit : Forest :=
  funcDecl { ptr := 1 } 100 elevenIfs (funcDecl { ptr := 2 } 200 Forest.nil Forest.nil)

/-- The statements `x := a + b; return x < 3`: neither operator is logical. -/
def arithmeticBody : Forest :=
  Forest.cons (Node.Other "AssignStmt")
    (Forest.cons (Node.Other "Ident") Forest.nil
      (Forest.cons (Node.BinaryExpr Token.ADD)
        (Forest.cons (Node.Other "Ident") Forest.nil
          (Forest.cons (Node.Other "Ident") Forest.nil Forest.nil)) Forest.nil))
    (Forest.cons (Node.Other "ReturnStmt")
      (Forest.cons (Node.BinaryExpr Token.LSS)
        (Forest.cons (Node.Other "Ident") Forest.nil
          (Forest.cons (Node.Other "BasicLit") Forest.nil Forest.nil)) Forest.nil)
      Forest.nil)

/-- The statement `switch x { case 1, 2, 3: g(); default: h() }`. -/
def switchBody : Forest :=
  Forest.cons (Node.Other "SwitchStmt")
    (Forest.cons (Node.Other "Ident") Forest.nil
      (Forest.cons (Node.Other "BlockStmt")
        (Forest.cons (Node.CaseClause [{ ptr := 11 }, { ptr := 12 }, { ptr := 13 }])
          (Forest.replicate 3 (Node.Other "BasicLit") Forest.nil)
          (Forest.cons (Node.CaseClause [])
            (Forest.cons (Node.Other "ExprStmt") Forest.nil Forest.nil) Forest.nil))
        Forest.nil))
    Forest.nil

/-- The expression `a && b || c`, which parses as `(a && b) || c`. -/
def logicalExpr : Forest :=
  Forest.cons (Node.BinaryExpr Token.LOR)
    (Forest.cons (Node.BinaryExpr Token.LAND)
      (Forest.cons (Node.Other "Ident") Forest.nil
        (Forest.cons (Node.Other "Ident") Forest.nil Forest.nil))
      (Forest.cons (Node.Other "Ident") Forest.nil Forest.nil))
    Forest.nil

/-- The statement `return a && b || c`. -/
def returnLogical : Forest :=
  Forest.cons (Node.Other "ReturnStmt") logicalExpr Forest.nil

/-- The statement `for range xs { }`. -/
def rangeLoop : Forest :=
  Forest.cons Node.RangeStmt
    (Forest.cons (Node.Other "Ident") Forest.nil
      (Forest.cons (Node.Other "BlockStmt") Forest.nil Forest.nil))
    Forest.nil

/-- The statement `for { }`. -/
def forLoop : Forest :=
  Forest.cons Node.ForStmt (Forest.cons (Node.Other "BlockStmt") Forest.nil Forest.nil) Forest.nil

/-- The statement `select { case <-a: case b <- 1: default: }`. -/
def selectBody : Forest :=
  Forest.cons (Node.Other "SelectStmt")
    (Forest.cons (Node.Other "BlockStmt")
      (Forest.cons (Node.CommClause (some { ptr := 21 }))
        (Forest.cons (Node.Other "ExprStmt") Forest.nil Forest.nil)
        (Forest.cons (Node.CommClause (some { ptr := 22 }))
          (Forest.cons (Node.Other "SendStmt") Forest.nil Forest.nil)
          (Forest.cons (Node.CommClause none) Forest.nil Forest.nil)))
      Forest.nil)
    Forest.nil

/-- The statements `for { }; if x { }`. -/
def forThenIf : Forest :=
  Forest.cons Node.ForStmt (Forest.cons (Node.Other "BlockStmt") Forest.nil Forest.nil)
    (Forest.cons Node.IfStmt
      (Forest.cons (Node.Other "Ident") Forest.nil
        (Forest.cons (Node.Other "BlockStmt") Forest.nil Forest.nil))
      Forest.nil)

/-- One file: `func g() { switch ... }` followed by `func f() { for { } }`. -/
def fileBefore : Forest :=
  Forest.cons (Node.Other "File")
    (funcDecl { ptr := 2 } 200 switchBody (funcDecl { ptr := 1 } 100 forLoop Forest.nil))
    Forest.nil

/-- The same file with `if x { }` added at the end of the body of `f`. -/
def fileAfter : Forest :=
  Forest.cons (Node.Other "File")
    (funcDecl { ptr := 2 } 200 switchBody (funcDecl { ptr := 1 } 100 forThenIf Forest.nil))
    Forest.nil

/-- The statements `if x { }; g := func() { if y { } }`: an if statement
followed by a function literal whose body holds an if statement. -/
def ifThenLiteral : Forest :=
  Forest.cons Node.IfStmt
    (Forest.cons (Node.Other "Ident") Forest.nil
      (Forest.cons (Node.Other "BlockStmt") Forest.nil Forest.nil))
    (Forest.cons (Node.Other "AssignStmt")
      (Forest.cons (Node.Other "Ident") Forest.nil
        (Forest.cons Node.FuncLit
          (Forest.cons (Node.Other "BlockStmt")
            (Forest.cons Node.IfStmt
              (Forest.cons (Node.Other "Ident") Forest.nil
                (Forest.cons (Node.Other "BlockStmt") Forest.nil Forest.nil))
              Forest.nil)
            Forest.nil)
          Forest.nil))
      Forest.nil)

/-! ## Lemmas about the walk -/

theorem runEvents_append (limit : Int) (Defs : Ident → Option Object) (s : State)
    (xs ys : List (Node × Bool)) :
    runEvents limit Defs s (xs ++ ys) =
      (runEvents limit Defs s xs).bind (fun s1 => runEvents limit Defs s1 ys) := by
  induction xs generalizing s with
  | nil => simp [runEvents]
  | cons e es ih =>
    simp only [List.cons_append, runEvents]
    cases h : callback limit Defs s e with
    | none => simp
    | some s1 => simpa using ih s1

theorem totalAfter_append (c : Complexity) (xs ys : List (Node × Bool)) :
    totalAfter c (xs ++ ys) = totalAfter (totalAfter c xs) ys := by
  induction xs generalizing c with
  | nil => simp [totalAfter]
  | cons e es ih => simp only [List.cons_append, totalAfter]; exact ih _

theorem report_resolved (limit : Int) (Defs : Ident → Option Object) (s : State)
    (name : Ident) (pos : Pos) (f : Func) (h : Defs name = some (Object.ofFunc f)) :
    report limit Defs s (Node.FuncDecl name pos) =
      some { c := s.c,
             acc := fun k => if k = name then some s.c else s.acc k,
             facts := s.facts ++ [(f, s.c)],
             diags := if s.c > limit then
                 s.diags ++ [{ pos := pos, message := reportMessage f.name s.c limit }]
               else s.diags } := by
  simp only [report, h]
  split <;> rfl

theorem report_unresolved (limit : Int) (Defs : Ident → Option Object) (s : State)
    (name : Ident) (pos : Pos) (h : ∀ f, Defs name ≠ some (Object.ofFunc f)) :
    report limit Defs s (Node.FuncDecl name pos) = none := by
  simp only [report]

theorem report_other (limit : Int) (Defs : Ident → Option Object) (s : State) (n : Node)
    (h : n.isFuncDecl = false) : report limit Defs s n = some s := by
  cases n <;> first | rfl | simp [Node.isFuncDecl] at h

theorem report_c (limit : Int) (Defs : Ident → Option Object) (s s1 : State) (n : Node)
    (h : report limit Defs s n = some s1) : s1.c = s.c := by
  cases hn : n.isFuncDecl with
  | false =>
    rw [report_other limit Defs s n hn] at h
    cases h; rfl
  | true =>
    cases n <;> simp [Node.isFuncDecl] at hn
    rename_i name pos
    cases hd : Defs name with
    | none =>
      rw [report_unresolved limit Defs s name pos (by simp [hd])] at h
      cases h
    | some o =>
      cases o with
      | ofFunc f =>
        rw [report_resolved limit Defs s name pos f hd] at h
        cases h; rfl
      | other kind =>
        rw [report_unresolved limit Defs s name pos (by simp [hd])] at h
        cases h

theorem callback_c (limit : Int) (Defs : Ident → Option Object) (s s1 : State) (e : Node × Bool)
    (h : callback limit Defs s e = some s1) : s1.c = if e.2 then add s.c e.1 else s.c := by
  unfold callback at h
  split at h
  · rename_i hp
    cases h
    simp [hp]
  · rename_i hp
    simp only [hp]
    exact report_c limit Defs s s1 e.1 h

theorem runEvents_c (limit : Int) (Defs : Ident → Option Object) (s s1 : State)
    (evs : List (Node × Bool)) (h : runEvents limit Defs s evs = some s1) :
    s1.c = totalAfter s.c evs := by
  induction evs generalizing s with
  | nil => simp [runEvents] at h; subst h; rfl
  | cons e es ih =>
    simp only [runEvents] at h
    cases hc : callback limit Defs s e with
    | none => rw [hc] at h; cases h
    | some s2 =>
      rw [hc] at h
      rw [ih s2 h, callback_c limit Defs s s2 e hc]
      rfl

theorem runEvents_no_exit (limit : Int) (Defs : Ident → Option Object) (s : State)
    (evs : List (Node × Bool)) (h : ∀ e ∈ evs, e.1.isFuncDecl = true → e.2 = true) :
    runEvents limit Defs s evs =
      some { c := totalAfter s.c evs, acc := s.acc, facts := s.facts, diags := s.diags } := by
  induction evs generalizing s with
  | nil => rfl
  | cons e es ih =>
    have hes : ∀ x ∈ es, x.1.isFuncDecl = true → x.2 = true :=
      fun x hx => h x (List.mem_cons_of_mem e hx)
    have he := h e (List.mem_cons_self e es)
    simp only [runEvents, callback, totalAfter]
    cases hp : e.2 with
    | true => simpa using ih _ hes
    | false =>
      have hn : e.1.isFuncDecl = false := by
        cases hf : e.1.isFuncDecl with
        | false => rfl
        | true => rw [he hf] at hp; cases hp
      simp only [Bool.false_eq_true, if_false, report_other limit Defs s e.1 hn]
      exact ih s hes

theorem count_eq_zero_of_mem_Nodes (types p : Node → Bool) (F : Forest)
    (h : F.count p = 0) : ∀ e ∈ Nodes types F, p e.1 = false := by
  induction F with
  | nil => intro e he; simp [Nodes] at he
  | cons n children siblings ihc ihs =>
    simp only [Forest.count] at h
    have hn : p n = false := by
      cases hpn : p n with
      | false => rfl
      | true => simp [hpn] at h
    have hc : children.count p = 0 := by omega
    have hs : siblings.count p = 0 := by omega
    intro e he
    simp only [Nodes, List.mem_append] at he
    rcases he with he | he
    · split at he
      · simp only [List.mem_cons, List.mem_append, List.mem_singleton, List.not_mem_nil,
          or_false] at he
        rcases he with he | he | he
        · rw [he]; exact hn
        · exact ihc hc e he
        · rw [he]; exact hn
      · exact ihc hc e he
    · exact ihs hs e he

theorem totalAfter_Nodes (c : Complexity) (F : Forest) (h : F.count Node.isFuncDecl = 0) :
    totalAfter c (Nodes registered F) =
      c + F.count Node.isIf + F.count Node.isFor + F.count Node.isComm + F.caseValues
        + F.count Node.isLogical := by
  induction F generalizing c with
  | nil => simp [Nodes, totalAfter, Forest.count, Forest.caseValues]
  | cons n children siblings ihc ihs =>
    simp only [Forest.count] at h
    have hc : children.count Node.isFuncDecl = 0 := by omega
    have hs : siblings.count Node.isFuncDecl = 0 := by omega
    have hn : n.isFuncDecl = false := by
      cases hpn : n.isFuncDecl with
      | false => rfl
      | true => simp [hpn] at h
    cases n with
    | FuncDecl name pos => simp [Node.isFuncDecl] at hn
    | BinaryExpr op =>
      cases op <;>
        (simp [Nodes, registered, totalAfter, totalAfter_append, add, Forest.count,
          Forest.caseValues, Node.listed, Node.isIf, Node.isFor, Node.isComm, Node.isLogical,
          ihc _ hc, ihs _ hs]; ring)
    | _ =>
      simp [Nodes, registered, totalAfter, totalAfter_append, add, Forest.count,
        Forest.caseValues, Node.listed, Node.isIf, Node.isFor, Node.isComm, Node.isLogical,
        ihc _ hc, ihs _ hs]
      try ring

/-! ## The walk as a function of its exit log -/

theorem exitLog_append (c : Complexity) (xs ys : List (Node × Bool)) :
    exitLog c (xs ++ ys) = exitLog c xs ++ exitLog (totalAfter c xs) ys := by
  induction xs generalizing c with
  | nil => simp [exitLog, totalAfter]
  | cons e es ih =>
    simp only [List.cons_append, exitLog, totalAfter]
    cases hp : e.2 with
    | true => simpa using ih _
    | false =>
      cases hd : e.1.decl with
      | none => simpa using ih _
      | some d => simpa using ih _

theorem decl_eq_some (n : Node) (d : Ident × Pos) (h : n.decl = some d) :
    n = Node.FuncDecl d.1 d.2 := by
  cases n <;> simp [Node.decl] at h
  subst h; rfl

theorem decl_eq_none (n : Node) (h : n.decl = none) : n.isFuncDecl = false := by
  cases n <;> simp [Node.decl] at h <;> rfl

theorem runEvents_eq (limit : Int) (Defs : Ident → Option Object) (s : State)
    (evs : List (Node × Bool))
    (h : ∀ x ∈ exitLog s.c evs, ∃ f, Defs x.1 = some (Object.ofFunc f)) :
    runEvents limit Defs s evs =
      some { c := totalAfter s.c evs,
             acc := accOf s.acc (exitLog s.c evs),
             facts := s.facts ++ (exitLog s.c evs).filterMap (factOf Defs),
             diags := s.diags ++ (exitLog s.c evs).filterMap (diagOf limit Defs) } := by
  induction evs generalizing s with
  | nil => simp [runEvents, totalAfter, exitLog, accOf]
  | cons e es ih =>
    simp only [runEvents, callback, totalAfter, exitLog] at h ⊢
    cases hp : e.2 with
    | true =>
      simp only [hp, if_true] at h ⊢
      exact ih _ h
    | false =>
      simp only [hp, Bool.false_eq_true, if_false] at h ⊢
      cases hd : e.1.decl with
      | none =>
        simp only [hd] at h ⊢
        rw [report_other limit Defs s e.1 (decl_eq_none e.1 hd)]
        exact ih s h
      | some d =>
        simp only [hd] at h ⊢
        obtain ⟨f, hf⟩ := h (d.1, d.2, s.c) (List.mem_cons_self _ _)
        rw [decl_eq_some e.1 d hd, report_resolved limit Defs s d.1 d.2 f hf]
        simp only
        rw [ih _ (by intro x hx; exact h x (List.mem_cons_of_mem _ hx))]
        simp only [accOf, List.filterMap_cons, factOf, diagOf, hf]
        split <;> simp

theorem accOf_append (m : Ident → Option Complexity) (xs ys : List (Ident × Pos × Complexity)) :
    accOf m (xs ++ ys) = accOf (accOf m xs) ys := by
  induction xs generalizing m with
  | nil => rfl
  | cons x xs ih => simp only [List.cons_append, accOf]; exact ih _

theorem accOf_not_mem (m : Ident → Option Complexity) (xs : List (Ident × Pos × Complexity))
    (k : Ident) (h : k ∉ xs.map (fun x => x.1)) : accOf m xs k = m k := by
  induction xs generalizing m with
  | nil => rfl
  | cons x xs ih =>
    simp only [List.map_cons, List.mem_cons, not_or] at h
    simp only [accOf]
    rw [ih _ h.2]
    simp [h.1]

theorem accOf_last (m : Ident → Option Complexity) (xs ys : List (Ident × Pos × Complexity))
    (k : Ident) (pos : Pos) (v : Complexity) (h : k ∉ ys.map (fun x => x.1)) :
    accOf m (xs ++ (k, pos, v) :: ys) k = some v := by
  rw [accOf_append]
  simp only [accOf]
  rw [accOf_not_mem _ ys k h]
  simp

theorem accOf_isSome (m : Ident → Option Complexity) (xs : List (Ident × Pos × Complexity))
    (k : Ident) : (accOf m xs k).isSome = true ↔ (m k).isSome = true ∨ k ∈ xs.map (fun x => x.1) := by
  induction xs generalizing m with
  | nil => simp [accOf]
  | cons x xs ih =>
    simp only [accOf, List.map_cons, List.mem_cons]
    rw [ih]
    by_cases hk : k = x.1
    · simp [hk]
    · simp [hk]

theorem mem_exitLog (c : Complexity) (evs : List (Node × Bool)) (x : Ident × Pos × Complexity)
    (h : x ∈ exitLog c evs) :
    ∃ pre post, evs = pre ++ (Node.FuncDecl x.1 x.2.1, false) :: post ∧ x.2.2 = totalAfter c pre := by
  induction evs generalizing c with
  | nil => simp [exitLog] at h
  | cons e es ih =>
    simp only [exitLog] at h
    cases hp : e.2 with
    | true =>
      simp only [hp, if_true] at h
      obtain ⟨pre, post, h1, h2⟩ := ih _ h
      exact ⟨e :: pre, post, by rw [h1]; rfl, by rw [h2]; simp [totalAfter, hp]⟩
    | false =>
      simp only [hp, Bool.false_eq_true, if_false] at h
      cases hd : e.1.decl with
      | none =>
        simp only [hd] at h
        obtain ⟨pre, post, h1, h2⟩ := ih _ h
        exact ⟨e :: pre, post, by rw [h1]; rfl, by rw [h2]; simp [totalAfter, hp]⟩
      | some d =>
        simp only [hd, List.mem_cons] at h
        rcases h with h | h
        · refine ⟨[], es, ?_, ?_⟩
          · have he : e = (e.1, e.2) := rfl
            rw [he, hp, decl_eq_some e.1 d hd, h]
            rfl
          · rw [h]; rfl
        · obtain ⟨pre, post, h1, h2⟩ := ih _ h
          exact ⟨e :: pre, post, by rw [h1]; rfl, by rw [h2]; simp [totalAfter, hp]⟩

theorem exitLog_split (c : Complexity) (pre post : List (Node × Bool)) (name : Ident) (pos : Pos) :
    exitLog c (pre ++ (Node.FuncDecl name pos, false) :: post) =
      exitLog c pre ++ (name, pos, totalAfter c pre) :: exitLog (totalAfter c pre) post := by
  rw [exitLog_append]
  simp [exitLog, Node.decl]

theorem Nodes_cons_of_registered (types : Node → Bool) (n : Node) (children siblings : Forest)
    (h : types n = true) :
    Nodes types (Forest.cons n children siblings) =
      (n, true) :: (Nodes types children ++ (n, false) :: Nodes types siblings) := by
  simp [Nodes, h]

theorem Nodes_cons_of_not_registered (types : Node → Bool) (n : Node)
    (children siblings : Forest) (h : types n = false) :
    Nodes types (Forest.cons n children siblings) =
      Nodes types children ++ Nodes types siblings := by
  simp [Nodes, h]

theorem exitLog_push (c : Complexity) (n : Node) (es : List (Node × Bool)) :
    exitLog c ((n, true) :: es) = exitLog (add c n) es := by
  simp [exitLog]

theorem exitLog_exit_other (c : Complexity) (n : Node) (es : List (Node × Bool))
    (h : n.decl = none) : exitLog c ((n, false) :: es) = exitLog c es := by
  simp [exitLog, h]

theorem exitLog_Nodes_perm (c : Complexity) (F : Forest) :
    ((exitLog c (Nodes registered F)).map (fun x => (x.1, x.2.1))).Perm F.funcDecls := by
  induction F generalizing c with
  | nil => simp [Nodes, exitLog, Forest.funcDecls]
  | cons n children siblings ihc ihs =>
    cases hr : registered n with
    | false =>
      have hd : n.decl = none := by cases n <;> first | rfl | simp [registered] at hr
      have hf : (Forest.cons n children siblings).funcDecls =
          children.funcDecls ++ siblings.funcDecls := by
        cases n <;> first | rfl | simp [Node.decl] at hd
      rw [Nodes_cons_of_not_registered _ _ _ _ hr, exitLog_append, List.map_append, hf]
      exact List.Perm.append (ihc _) (ihs _)
    | true =>
      rw [Nodes_cons_of_registered _ _ _ _ hr, exitLog_push, exitLog_append, List.map_append]
      cases hd : n.decl with
      | none =>
        have hf : (Forest.cons n children siblings).funcDecls =
            children.funcDecls ++ siblings.funcDecls := by
          cases n <;> first | rfl | simp [Node.decl] at hd
        rw [exitLog_exit_other _ _ _ hd, hf]
        exact List.Perm.append (ihc _) (ihs _)
      | some d =>
        rw [decl_eq_some n d hd]
        have hx : ∀ c1 : Complexity,
            exitLog c1 ((Node.FuncDecl d.1 d.2, false) :: Nodes registered siblings) =
              (d.1, d.2, c1) :: exitLog c1 (Nodes registered siblings) := by
          intro c1; simp [exitLog, Node.decl]
        rw [hx, List.map_cons]
        have hf : (Forest.cons (Node.FuncDecl d.1 d.2) children siblings).funcDecls =
            (d.1, d.2) :: (children.funcDecls ++ siblings.funcDecls) := by
          simp [Forest.funcDecls]
        rw [hf]
        refine List.Perm.trans List.perm_middle ?_
        exact List.Perm.cons _ (List.Perm.append (ihc _) (ihs _))

theorem isFunc_eq_true (o : Option Object) (h : isFunc o = true) :
    ∃ f, o = some (Object.ofFunc f) := by
  cases o with
  | none => simp [isFunc] at h
  | some x =>
    cases x with
    | ofFunc f => exact ⟨f, rfl⟩
    | other kind => simp [isFunc] at h

theorem resolved_exitLog (Defs : Ident → Option Object) (c : Complexity) (F : Forest)
    (h : F.resolved Defs = true) :
    ∀ x ∈ exitLog c (Nodes registered F), ∃ f, Defs x.1 = some (Object.ofFunc f) := by
  intro x hx
  have hm : (x.1, x.2.1) ∈ (exitLog c (Nodes registered F)).map (fun x => (x.1, x.2.1)) :=
    List.mem_map_of_mem _ hx
  have hf : (x.1, x.2.1) ∈ F.funcDecls := (exitLog_Nodes_perm c F).mem_iff.mp hm
  simp only [Forest.resolved, List.all_eq_true] at h
  exact isFunc_eq_true _ (h _ hf)

theorem exitLog_nodup (c : Complexity) (F : Forest)
    (h : (F.funcDecls.map Prod.fst).Nodup) :
    ((exitLog c (Nodes registered F)).map (fun x => x.1)).Nodup := by
  have hp := (exitLog_Nodes_perm c F).map Prod.fst
  rw [List.map_map] at hp
  exact hp.nodup_iff.mpr h

theorem accOf_of_mem (m : Ident → Option Complexity) (log : List (Ident × Pos × Complexity))
    (h : (log.map (fun x => x.1)).Nodup) (x : Ident × Pos × Complexity) (hx : x ∈ log) :
    accOf m log x.1 = some x.2.2 := by
  obtain ⟨l1, l2, rfl⟩ := List.append_of_mem hx
  have h2 : x.1 ∉ l2.map (fun x => x.1) := by
    rw [List.map_append, List.map_cons] at h
    have := (List.nodup_append.mp h).2.1
    exact (List.nodup_cons.mp this).1
  exact accOf_last m l1 l2 x.1 x.2.1 x.2.2 h2

/-! ## The score of one function declaration -/

/-- C1: for a function declaration whose subtree holds no other function
declaration and whose identifier resolves to a function, the walk from its
enter event to its exit event, started in any state, succeeds and records for
its identifier the score 1 + (if statements) + (for statements) +
(communication clauses) + (values listed by the case clauses) + (binary
expressions with operator `&&` or `||`), counted over the nodes of its
subtree. -/
theorem C1_score_is_one_plus_decision_points (limit : Int) (Defs : Ident → Option Object)
    (s0 : State) (name : Ident) (pos : Pos) (body : Forest) (f : Func)
    (hres : Defs name = some (Object.ofFunc f))
    (hno : body.count Node.isFuncDecl = 0) :
    ∃ s1, runEvents limit Defs s0
        (Nodes registered (Forest.cons (Node.FuncDecl name pos) body Forest.nil)) = some s1 ∧
      s1.acc name = some ((1 : Int) + (body.count Node.isIf : Int) + (body.count Node.isFor : Int)
        + (body.count Node.isComm : Int) + (body.caseValues : Int)
        + (body.count Node.isLogical : Int)) := by
  have hev : Nodes registered (Forest.cons (Node.FuncDecl name pos) body Forest.nil) =
      ((Node.FuncDecl name pos, true) :: Nodes registered body) ++ [(Node.FuncDecl name pos, false)] := by
    simp [Nodes, registered]
  have hbody : ∀ e ∈ (Node.FuncDecl name pos, true) :: Nodes registered body,
      e.1.isFuncDecl = true → e.2 = true := by
    intro e he hf
    rcases List.mem_cons.mp he with he | he
    · rw [he]
    · rw [count_eq_zero_of_mem_Nodes registered Node.isFuncDecl body hno e he] at hf
      cases hf
  rw [hev, runEvents_append, runEvents_no_exit limit Defs s0 _ hbody]
  simp only [Option.bind, runEvents, callback, Bool.false_eq_true, if_false]
  rw [report_resolved limit Defs _ name pos f hres]
  refine ⟨_, rfl, ?_⟩
  simp only [if_true, totalAfter, add]
  rw [totalAfter_Nodes 1 body hno]

/-- C1 (witness): a function with eleven if statements in sequence scores
12. -/
theorem C1_score_is_one_plus_decision_points_witness :
    sampleDefs { ptr := 1 } = some (Object.ofFunc { ptr := 1, name := "f" }) ∧
    (Forest.cons (Node.Other "BlockStmt") elevenIfs Forest.nil).count Node.isFuncDecl = 0 ∧
    ∃ s1, run 10 sampleDefs (funcDecl { ptr := 1 } 100 elevenIfs Forest.nil) = some s1 ∧
      s1.acc { ptr := 1 } = some 12 :=
  ⟨by decide, by decide,
    C1_score_is_one_plus_decision_points 10 sampleDefs State.init { ptr := 1 } 100
      (Forest.cons (Node.Other "BlockStmt") elevenIfs Forest.nil) { ptr := 1, name := "f" }
      (by decide) (by decide)⟩

/-! ## The outputs of `run` on a unit -/

theorem run_eq (limit : Int) (Defs : Ident → Option Object) (files : Forest)
    (hres : files.resolved Defs = true) :
    run limit Defs files =
      some { c := totalAfter 0 (Nodes registered files),
             acc := accOf (fun _ => none) (exitLog 0 (Nodes registered files)),
             facts := (exitLog 0 (Nodes registered files)).filterMap (factOf Defs),
             diags := (exitLog 0 (Nodes registered files)).filterMap (diagOf limit Defs) } := by
  unfold run
  rw [runEvents_eq limit Defs State.init _ (resolved_exitLog Defs 0 files hres)]
  simp [State.init]

theorem mem_exitLog_of_mem_funcDecls (c : Complexity) (F : Forest) (p : Ident × Pos)
    (hp : p ∈ F.funcDecls) :
    ∃ x ∈ exitLog c (Nodes registered F), x.1 = p.1 ∧ x.2.1 = p.2 := by
  have hm := (exitLog_Nodes_perm c F).mem_iff.mpr hp
  obtain ⟨x, hx, hxp⟩ := List.mem_map.mp hm
  refine ⟨x, hx, ?_, ?_⟩
  · rw [← hxp]
  · rw [← hxp]

theorem mem_funcDecls_of_mem_exitLog (c : Complexity) (F : Forest) (x : Ident × Pos × Complexity)
    (hx : x ∈ exitLog c (Nodes registered F)) : (x.1, x.2.1) ∈ F.funcDecls :=
  (exitLog_Nodes_perm c F).mem_iff.mp (List.mem_map_of_mem (fun x => (x.1, x.2.1)) hx)

theorem diagOf_eq_some (limit : Int) (Defs : Ident → Option Object)
    (x : Ident × Pos × Complexity) (d : Diagnostic) (h : diagOf limit Defs x = some d) :
    limit < x.2.2 ∧ d.pos = x.2.1 ∧
      ∃ f, Defs x.1 = some (Object.ofFunc f) ∧ d.message = reportMessage f.name x.2.2 limit := by
  unfold diagOf at h
  split at h
  · rename_i f hf
    split at h
    · rename_i hlt
      cases h
      exact ⟨hlt, rfl, f, hf, rfl⟩
    · cases h
  · cases h

theorem diagOf_of_resolved (limit : Int) (Defs : Ident → Option Object)
    (x : Ident × Pos × Complexity) (f : Func) (hf : Defs x.1 = some (Object.ofFunc f))
    (hlt : limit < x.2.2) :
    diagOf limit Defs x = some { pos := x.2.1, message := reportMessage f.name x.2.2 limit } := by
  simp [diagOf, hf, hlt]

/-- C2: `report` on the exit of a function declaration whose identifier
resolves emits exactly one diagnostic when the score is strictly greater than
the limit and none otherwise (so none when the score equals the limit); and in
a unit whose declarations have distinct identifiers and positions and all
resolve, a declaration has a diagnostic at its position if and only if its
recorded score is strictly greater than the limit, and every diagnostic
belongs to a declaration. -/
theorem C2_diagnostic_iff_score_exceeds_limit (limit : Int) (Defs : Ident → Option Object)
    (files : Forest) (s : State) (name : Ident) (pos : Pos) (f : Func)
    (hf : Defs name = some (Object.ofFunc f))
    (hid : (files.funcDecls.map Prod.fst).Nodup)
    (hpos : (files.funcDecls.map Prod.snd).Nodup)
    (hres : files.resolved Defs = true) :
    (∃ s1, report limit Defs s (Node.FuncDecl name pos) = some s1 ∧
      (limit < s.c →
        s1.diags = s.diags ++ [{ pos := pos, message := reportMessage f.name s.c limit }]) ∧
      (s.c ≤ limit → s1.diags = s.diags)) ∧
    (∃ final, run limit Defs files = some final ∧
      (∀ p ∈ files.funcDecls,
        (∃ d ∈ final.diags, d.pos = p.2) ↔ ∃ v, final.acc p.1 = some v ∧ limit < v) ∧
      (∀ d ∈ final.diags, ∃ p ∈ files.funcDecls, d.pos = p.2)) := by
  constructor
  · refine ⟨_, report_resolved limit Defs s name pos f hf, ?_, ?_⟩
    · intro h
      simp [h]
    · intro h
      have : ¬ s.c > limit := not_lt.mpr h
      simp [this]
  · refine ⟨_, run_eq limit Defs files hres, ?_, ?_⟩
    · intro p hp
      simp only
      constructor
      · rintro ⟨d, hd, hdp⟩
        obtain ⟨x, hx, hxd⟩ := List.mem_filterMap.mp hd
        obtain ⟨hlt, hdx, -⟩ := diagOf_eq_some limit Defs x d hxd
        have hxf := mem_funcDecls_of_mem_exitLog 0 files x hx
        have heq : (x.1, x.2.1) = p :=
          List.inj_on_of_nodup_map hpos hxf hp (by rw [← hdp, hdx])
        refine ⟨x.2.2, ?_, hlt⟩
        rw [← heq]
        exact accOf_of_mem _ _ (exitLog_nodup 0 files hid) x hx
      · rintro ⟨v, hv, hlt⟩
        obtain ⟨x, hx, hx1, hx2⟩ := mem_exitLog_of_mem_funcDecls 0 files p hp
        have hacc := accOf_of_mem (fun _ => none) _ (exitLog_nodup 0 files hid) x hx
        rw [hx1, hv] at hacc
        have hvx : v = x.2.2 := Option.some.inj hacc
        obtain ⟨g, hg⟩ := resolved_exitLog Defs 0 files hres x hx
        refine ⟨_, List.mem_filterMap.mpr
          ⟨x, hx, diagOf_of_resolved limit Defs x g hg (by rw [← hvx]; exact hlt)⟩, ?_⟩
        exact hx2
    · intro d hd
      obtain ⟨x, hx, hxd⟩ := List.mem_filterMap.mp hd
      obtain ⟨-, hdx, -⟩ := diagOf_eq_some limit Defs x d hxd
      exact ⟨(x.1, x.2.1), mem_funcDecls_of_mem_exitLog 0 files x hx, hdx⟩

/-- C2 (witness): the sample unit with limit 10, and `report` at a score equal
to the limit. -/
theorem C2_diagnostic_iff_score_exceeds_limit_witness :
    (∃ s1, report 10 sampleDefs { c := 10, acc := fun _ => none, facts := [], diags := [] }
        (Node.FuncDecl { ptr := 1 } 100) = some s1 ∧
      ((10 : Int) < 10 →
        s1.diags = [] ++ [{ pos := 100, message := reportMessage "f" 10 10 }]) ∧
      ((10 : Int) ≤ 10 → s1.diags = [])) ∧
    (∃ final, run 10 sampleDefs sampleUnit = some final ∧
      (∀ p ∈ sampleUnit.funcDecls,
        (∃ d ∈ final.diags, d.pos = p.2) ↔ ∃ v, final.acc p.1 = some v ∧ 10 < v) ∧
      (∀ d ∈ final.diags, ∃ p ∈ sampleUnit.funcDecls, d.pos = p.2)) :=
  C2_diagnostic_iff_score_exceeds_limit 10 sampleDefs sampleUnit
    { c := 10, acc := fun _ => none, facts := [], diags := [] } { ptr := 1 } 100
    { ptr := 1, name := "f" } (by decide) (by decide) (by decide) (by decide)

theorem factOf_eq_some (Defs : Ident → Option Object) (x : Ident × Pos × Complexity)
    (g : Func) (v : Complexity) :
    factOf Defs x = some (g, v) ↔ Defs x.1 = some (Object.ofFunc g) ∧ v = x.2.2 := by
  unfold factOf
  split
  · rename_i f hf
    rw [hf]
    constructor
    · intro h
      cases h
      exact ⟨rfl, rfl⟩
    · rintro ⟨h1, h2⟩
      cases h1
      rw [h2]
  · rename_i hn
    constructor
    · intro h; cases h
    · rintro ⟨h1, -⟩
      exact absurd h1 (hn g)

/-- C3: `report` on the exit of a function declaration whose identifier
resolves to a function exports the fact (function, running total) whatever
the limit, and stores the same value under the identifier; and in a unit
whose declarations have distinct identifiers and all resolve, the facts
exported for a function are exactly the values the result mapping holds for
the declarations that resolve to it. -/
theorem C3_fact_exported_equals_result_entry (limit : Int) (Defs : Ident → Option Object)
    (files : Forest) (s : State) (name : Ident) (pos : Pos) (f : Func)
    (hf : Defs name = some (Object.ofFunc f))
    (hid : (files.funcDecls.map Prod.fst).Nodup)
    (hres : files.resolved Defs = true) :
    (∃ s1, report limit Defs s (Node.FuncDecl name pos) = some s1 ∧
      s1.facts = s.facts ++ [(f, s.c)] ∧ s1.acc name = some s.c) ∧
    (∃ final, run limit Defs files = some final ∧
      ∀ g v, (g, v) ∈ final.facts ↔
        ∃ p ∈ files.funcDecls, Defs p.1 = some (Object.ofFunc g) ∧ final.acc p.1 = some v) := by
  constructor
  · exact ⟨_, report_resolved limit Defs s name pos f hf, rfl, by simp⟩
  · refine ⟨_, run_eq limit Defs files hres, ?_⟩
    intro g v
    simp only
    constructor
    · intro h
      obtain ⟨x, hx, hxf⟩ := List.mem_filterMap.mp h
      obtain ⟨hg, hv⟩ := (factOf_eq_some Defs x g v).mp hxf
      refine ⟨(x.1, x.2.1), mem_funcDecls_of_mem_exitLog 0 files x hx, hg, ?_⟩
      rw [hv]
      exact accOf_of_mem _ _ (exitLog_nodup 0 files hid) x hx
    · rintro ⟨p, hp, hg, hv⟩
      obtain ⟨x, hx, hx1, -⟩ := mem_exitLog_of_mem_funcDecls 0 files p hp
      have hacc := accOf_of_mem (fun _ => none) _ (exitLog_nodup 0 files hid) x hx
      rw [hx1, hv] at hacc
      have hvx : v = x.2.2 := Option.some.inj hacc
      exact List.mem_filterMap.mpr
        ⟨x, hx, (factOf_eq_some Defs x g v).mpr ⟨by rw [hx1]; exact hg, hvx⟩⟩

/-- C3 (witness): the sample unit; `report` at score 1, far below the limit. -/
theorem C3_fact_exported_equals_result_entry_witness :
    (∃ s1, report 10 sampleDefs { c := 1, acc := fun _ => none, facts := [], diags := [] }
        (Node.FuncDecl { ptr := 2 } 200) = some s1 ∧
      s1.facts = [] ++ [({ ptr := 2, name := "g" }, 1)] ∧ s1.acc { ptr := 2 } = some 1) ∧
    (∃ final, run 10 sampleDefs sampleUnit = some final ∧
      ∀ g v, (g, v) ∈ final.facts ↔
        ∃ p ∈ sampleUnit.funcDecls,
          sampleDefs p.1 = some (Object.ofFunc g) ∧ final.acc p.1 = some v) :=
  C3_fact_exported_equals_result_entry 10 sampleDefs sampleUnit
    { c := 1, acc := fun _ => none, facts := [], diags := [] } { ptr := 2 } 200
    { ptr := 2, name := "g" } (by decide) (by decide) (by decide)

theorem acc_after_exit (limit : Int) (Defs : Ident → Option Object) (s : State)
    (pre post rest : List (Node × Bool)) (name : Ident) (pos : Pos)
    (hres : ∀ x ∈ exitLog s.c (pre ++ (Node.FuncDecl name pos, false) :: (post ++ rest)),
      ∃ f, Defs x.1 = some (Object.ofFunc f))
    (hid : ((exitLog s.c (pre ++ (Node.FuncDecl name pos, false) :: (post ++ rest))).map
      (fun x => x.1)).Nodup) :
    ∃ s1 s2, runEvents limit Defs s pre = some s1 ∧
      runEvents limit Defs s (pre ++ (Node.FuncDecl name pos, false) :: post) = some s2 ∧
      s2.acc name = some s1.c := by
  rw [exitLog_split, exitLog_append] at hres hid
  have hpre : ∀ x ∈ exitLog s.c pre, ∃ f, Defs x.1 = some (Object.ofFunc f) :=
    fun x hx => hres x (List.mem_append_left _ hx)
  have hmid : ∀ x ∈ exitLog s.c (pre ++ (Node.FuncDecl name pos, false) :: post),
      ∃ f, Defs x.1 = some (Object.ofFunc f) := by
    intro x hx
    rw [exitLog_split] at hx
    apply hres x
    rcases List.mem_append.mp hx with hx | hx
    · exact List.mem_append_left _ hx
    · apply List.mem_append_right
      rcases List.mem_cons.mp hx with hx | hx
      · rw [hx]; exact List.mem_cons_self _ _
      · exact List.mem_cons_of_mem _ (List.mem_append_left _ hx)
  have hnot : name ∉ (exitLog (totalAfter s.c pre) post).map (fun x => x.1) := by
    rw [List.map_append, List.map_cons, List.map_append] at hid
    have h1 := (List.nodup_append.mp hid).2.1
    have h2 := (List.nodup_cons.mp h1).1
    exact fun hmem => h2 (List.mem_append_left _ hmem)
  refine ⟨_, _, runEvents_eq limit Defs s pre hpre, runEvents_eq limit Defs s _ hmid, ?_⟩
  simp only
  rw [exitLog_split]
  exact accOf_last _ _ _ name pos _ hnot

/-- C4: in a unit whose function declarations have distinct identifiers and
all resolve, `run` returns a result mapping whose keys are exactly the
identifiers of the function declarations of the unit, and the entry of a
declaration is the running total on arrival at its own exit event: it has
that value right after the exit, after any number of later events, and in the
returned mapping. -/
theorem C4_result_mapping_one_entry_per_declaration (limit : Int)
    (Defs : Ident → Option Object) (files : Forest)
    (hid : (files.funcDecls.map Prod.fst).Nodup)
    (hres : files.resolved Defs = true) :
    ∃ final, run limit Defs files = some final ∧
      (∀ k, (final.acc k).isSome = true ↔ k ∈ files.funcDecls.map Prod.fst) ∧
      (∀ pre post rest name pos,
        Nodes registered files = pre ++ (Node.FuncDecl name pos, false) :: (post ++ rest) →
        ∃ s1 s2, runEvents limit Defs State.init pre = some s1 ∧
          runEvents limit Defs State.init (pre ++ (Node.FuncDecl name pos, false) :: post)
            = some s2 ∧
          s2.acc name = some s1.c ∧ final.acc name = some s1.c) := by
  refine ⟨_, run_eq limit Defs files hres, ?_, ?_⟩
  · intro k
    simp only
    rw [accOf_isSome]
    have hp := (exitLog_Nodes_perm 0 files).map Prod.fst
    rw [List.map_map] at hp
    constructor
    · rintro (h | h)
      · simp at h
      · exact hp.mem_iff.mp h
    · intro h
      exact Or.inr (hp.mem_iff.mpr h)
  · intro pre post rest name pos hev
    have hr := resolved_exitLog Defs 0 files hres
    have hn := exitLog_nodup 0 files hid
    rw [hev] at hr hn
    obtain ⟨s1, s2, h1, h2, h3⟩ :=
      acc_after_exit limit Defs State.init pre post rest name pos hr hn
    have hr2 := hr
    have hn2 := hn
    rw [← List.append_nil (post ++ rest)] at hr2 hn2
    obtain ⟨t1, t2, k1, k2, k3⟩ :=
      acc_after_exit limit Defs State.init pre (post ++ rest) [] name pos hr2 hn2
    refine ⟨s1, s2, h1, h2, h3, ?_⟩
    rw [h1] at k1
    cases k1
    have hrun := run_eq limit Defs files hres
    unfold run at hrun
    rw [hev, k2] at hrun
    cases hrun
    simp only
    rw [hev]
    exact k3

/-- C4 (witness): the sample unit of two declarations. -/
theorem C4_result_mapping_one_entry_per_declaration_witness :
    (sampleUnit.funcDecls.map Prod.fst).Nodup ∧ sampleUnit.resolved sampleDefs = true ∧
    ∃ final, run 10 sampleDefs sampleUnit = some final ∧
      (∀ k, (final.acc k).isSome = true ↔ k ∈ sampleUnit.funcDecls.map Prod.fst) ∧
      (∀ pre post rest name pos,
        Nodes registered sampleUnit = pre ++ (Node.FuncDecl name pos, false) :: (post ++ rest) →
        ∃ s1 s2, runEvents 10 sampleDefs State.init pre = some s1 ∧
          runEvents 10 sampleDefs State.init (pre ++ (Node.FuncDecl name pos, false) :: post)
            = some s2 ∧
          s2.acc name = some s1.c ∧ final.acc name = some s1.c) :=
  ⟨by decide, by decide,
    C4_result_mapping_one_entry_per_declaration 10 sampleDefs sampleUnit (by decide) (by decide)⟩

/-! ## Functions without decision points -/

theorem count_cons_eq_zero (p : Node → Bool) (n : Node) (children siblings : Forest)
    (h : (Forest.cons n children siblings).count p = 0) :
    p n = false ∧ children.count p = 0 ∧ siblings.count p = 0 := by
  simp only [Forest.count] at h
  refine ⟨?_, by omega, by omega⟩
  cases hpn : p n with
  | false => rfl
  | true => simp [hpn] at h

theorem plain_cons (n : Node) (children siblings : Forest)
    (h : (Forest.cons n children siblings).plain) :
    add 1 n = 1 ∧ children.plain ∧ siblings.plain := by
  obtain ⟨h1, h2, h3, h4, h5⟩ := h
  obtain ⟨a1, b1, c1⟩ := count_cons_eq_zero _ _ _ _ h1
  obtain ⟨a2, b2, c2⟩ := count_cons_eq_zero _ _ _ _ h2
  obtain ⟨a3, b3, c3⟩ := count_cons_eq_zero _ _ _ _ h3
  obtain ⟨a4, b4, c4⟩ := count_cons_eq_zero _ _ _ _ h4
  obtain ⟨a5, b5, c5⟩ := count_cons_eq_zero _ _ _ _ h5
  refine ⟨?_, ⟨b1, b2, b3, b4, b5⟩, ⟨c1, c2, c3, c4, c5⟩⟩
  cases n with
  | BinaryExpr op => cases op <;> first | rfl | simp [Node.isLogical] at a5
  | IfStmt => simp [Node.isIf] at a1
  | ForStmt => simp [Node.isFor] at a2
  | CommClause comm => simp [Node.isComm] at a3
  | CaseClause l => simp [Node.isCase] at a4
  | _ => rfl

theorem plain_walk (F : Forest) (h : F.plain) :
    totalAfter 1 (Nodes registered F) = 1 ∧
      ∀ x ∈ exitLog 1 (Nodes registered F), x.2.2 = 1 := by
  induction F with
  | nil => simp [Nodes, totalAfter, exitLog]
  | cons n children siblings ihc ihs =>
    obtain ⟨hadd, hc, hs⟩ := plain_cons n children siblings h
    obtain ⟨tc, lc⟩ := ihc hc
    obtain ⟨ts, ls⟩ := ihs hs
    cases hr : registered n with
    | false =>
      rw [Nodes_cons_of_not_registered _ _ _ _ hr, totalAfter_append, exitLog_append, tc]
      refine ⟨ts, ?_⟩
      intro x hx
      rcases List.mem_append.mp hx with hx | hx
      · exact lc x hx
      · exact ls x hx
    | true =>
      rw [Nodes_cons_of_registered _ _ _ _ hr, exitLog_push, exitLog_append]
      have ht : totalAfter 1 ((n, true) :: (Nodes registered children ++
          (n, false) :: Nodes registered siblings)) = 1 := by
        simp only [totalAfter, if_true, hadd, totalAfter_append, tc, Bool.false_eq_true, if_false]
        exact ts
      refine ⟨ht, ?_⟩
      rw [hadd, tc]
      intro x hx
      rcases List.mem_append.mp hx with hx | hx
      · exact lc x hx
      · simp only [exitLog, Bool.false_eq_true, if_false] at hx
        cases hd : n.decl with
        | none =>
          rw [hd] at hx
          exact ls x hx
        | some d =>
          rw [hd] at hx
          rcases List.mem_cons.mp hx with hx | hx
          · rw [hx]
          · exact ls x hx

theorem diagOf_eq_none (limit : Int) (Defs : Ident → Option Object)
    (x : Ident × Pos × Complexity) (h : x.2.2 ≤ limit) : diagOf limit Defs x = none := by
  unfold diagOf
  split
  · have : ¬ x.2.2 > limit := not_lt.mpr h
    simp [this]
  · rfl

/-- C5: for a function declaration whose subtree holds no if statement, no
for statement, no communication clause, no case clause and no binary
expression with operator `&&` or `||` (whatever else it holds, an empty body
included), and whose declarations resolve, the walk from its enter event to
its exit event, started in any state, succeeds, records the score 1 for its
identifier, and with a limit of at least 1 (10 in particular) emits no
diagnostic. -/
theorem C5_no_decision_points_scores_one (limit : Int) (Defs : Ident → Option Object)
    (s0 : State) (name : Ident) (pos : Pos) (body : Forest)
    (hres : (Forest.cons (Node.FuncDecl name pos) body Forest.nil).resolved Defs = true)
    (hplain : body.count Node.isIf = 0 ∧ body.count Node.isFor = 0 ∧
      body.count Node.isComm = 0 ∧ body.count Node.isCase = 0 ∧
      body.count Node.isLogical = 0) :
    ∃ s1, runEvents limit Defs s0
        (Nodes registered (Forest.cons (Node.FuncDecl name pos) body Forest.nil)) = some s1 ∧
      s1.acc name = some 1 ∧ (1 ≤ limit → s1.diags = s0.diags) := by
  have hev : Nodes registered (Forest.cons (Node.FuncDecl name pos) body Forest.nil) =
      (Node.FuncDecl name pos, true) :: (Nodes registered body ++ [(Node.FuncDecl name pos, false)]) := by
    simp [Nodes, registered]
  obtain ⟨tb, lb⟩ := plain_walk body hplain
  have hlog : exitLog s0.c (Nodes registered (Forest.cons (Node.FuncDecl name pos) body Forest.nil)) =
      exitLog 1 (Nodes registered body) ++ [(name, pos, 1)] := by
    have hadd : add s0.c (Node.FuncDecl name pos) = 1 := rfl
    rw [hev, exitLog_push, exitLog_append, hadd, tb]
    simp [exitLog, Node.decl]
  have hr := resolved_exitLog Defs s0.c _ hres
  refine ⟨_, runEvents_eq limit Defs s0 _ hr, ?_, ?_⟩
  · simp only
    rw [hlog]
    exact accOf_last _ _ [] name pos 1 (by simp)
  · intro hl
    simp only
    rw [hlog]
    have hnone : ∀ x ∈ exitLog 1 (Nodes registered body) ++ [(name, pos, (1 : Complexity))],
        diagOf limit Defs x = none := by
      intro x hx
      apply diagOf_eq_none
      rcases List.mem_append.mp hx with hx | hx
      · rw [lb x hx]; exact hl
      · rw [List.mem_singleton.mp hx]; exact hl
    have : List.filterMap (diagOf limit Defs)
        (exitLog 1 (Nodes registered body) ++ [(name, pos, (1 : Complexity))]) = [] := by
      apply List.filterMap_eq_nil_iff.mpr
      exact hnone
    rw [this, List.append_nil]

/-- C5 (witness): a function with an empty body, and a function whose body
holds an addition and a comparison, both with limit 10. -/
theorem C5_no_decision_points_scores_one_witness :
    (∃ s1, run 10 sampleDefs (Forest.cons (Node.FuncDecl { ptr := 1 } 100) Forest.nil Forest.nil)
        = some s1 ∧
      s1.acc { ptr := 1 } = some 1 ∧ ((1 : Int) ≤ 10 → s1.diags = [])) ∧
    (∃ s1, run 10 sampleDefs (funcDecl { ptr := 1 } 100 arithmeticBody Forest.nil) = some s1 ∧
      s1.acc { ptr := 1 } = some 1 ∧ ((1 : Int) ≤ 10 → s1.diags = [])) :=
  ⟨C5_no_decision_points_scores_one 10 sampleDefs State.init { ptr := 1 } 100 Forest.nil
      (by decide) (by decide),
    C5_no_decision_points_scores_one 10 sampleDefs State.init { ptr := 1 } 100
      (Forest.cons (Node.Other "BlockStmt") arithmeticBody Forest.nil) (by decide) (by decide)⟩

/-! ## The scoring rules -/

/-- C6: entering a case clause that lists N values adds exactly N to the
running total, so a default clause (empty list) adds nothing; the exit of the
clause changes nothing; and a function whose only decision content is one
switch with a clause listing 3 values and a default clause scores
1 + 3 + 0 = 4. -/
theorem C6_case_clause_adds_listed_values :
    (∀ (c : Complexity) (l : List Expr), add c (Node.CaseClause l) = c + (l.length : Int)) ∧
    (∀ c : Complexity, add c (Node.CaseClause []) = c) ∧
    (∀ (limit : Int) (Defs : Ident → Option Object) (s : State) (l : List Expr),
      callback limit Defs s (Node.CaseClause l, true) =
          some { c := s.c + (l.length : Int), acc := s.acc, facts := s.facts, diags := s.diags } ∧
        callback limit Defs s (Node.CaseClause l, false) = some s) ∧
    (∀ l : List Expr, registered (Node.CaseClause l) = true) ∧
    (run 10 sampleDefs (funcDecl { ptr := 1 } 100 switchBody Forest.nil)).map
      (fun s => s.acc { ptr := 1 }) = some (some 4) := by
  refine ⟨fun c l => rfl, fun c => ?_, fun limit Defs s l => ⟨rfl, rfl⟩, fun l => rfl, by decide⟩
  simp [add]

theorem count_eq_zero_of_imp (p q : Node → Bool) (hpq : ∀ n, q n = true → p n = true)
    (F : Forest) (h : F.count p = 0) : F.count q = 0 := by
  induction F with
  | nil => rfl
  | cons n children siblings ihc ihs =>
    obtain ⟨hn, hc, hs⟩ := count_cons_eq_zero p n children siblings h
    have hq : q n = false := by
      cases hqn : q n with
      | false => rfl
      | true => rw [hpq n hqn] at hn; cases hn
    simp [Forest.count, hq, ihc hc, ihs hs]

theorem caseValues_eq_zero (F : Forest) (h : F.count Node.isCase = 0) : F.caseValues = 0 := by
  induction F with
  | nil => rfl
  | cons n children siblings ihc ihs =>
    obtain ⟨hn, hc, hs⟩ := count_cons_eq_zero Node.isCase n children siblings h
    have hl : n.listed = 0 := by
      cases n <;> first | rfl | simp [Node.isCase] at hn
    simp [Forest.caseValues, hl, ihc hc, ihs hs]

/-- C7: entering a binary expression adds exactly 1 to the running total when
its operator is `&&` or `||` and nothing for every other operator; walking an
expression whose only registered nodes are binary expressions succeeds and
adds the number of its `&&` and `||` operators, each occurrence counted. -/
theorem C7_logical_operators_add_one_each (limit : Int) (Defs : Ident → Option Object)
    (s : State) (op : Token) (E : Forest)
    (hE : E.count (fun n => registered n && !n.isBinary) = 0) :
    add s.c (Node.BinaryExpr op) =
        (if op = Token.LAND ∨ op = Token.LOR then s.c + 1 else s.c) ∧
    callback limit Defs s (Node.BinaryExpr op, false) = some s ∧
    ∃ s1, runEvents limit Defs s (Nodes registered E) = some s1 ∧
      s1.c = s.c + (E.count Node.isLogical : Int) := by
  refine ⟨?_, rfl, ?_⟩
  · cases op <;> simp [add]
  · have hfd : E.count Node.isFuncDecl = 0 :=
      count_eq_zero_of_imp _ _ (by intro n hn; cases n <;> simp_all [Node.isFuncDecl, registered, Node.isBinary]) E hE
    have hif : E.count Node.isIf = 0 :=
      count_eq_zero_of_imp _ _ (by intro n hn; cases n <;> simp_all [Node.isIf, registered, Node.isBinary]) E hE
    have hfor : E.count Node.isFor = 0 :=
      count_eq_zero_of_imp _ _ (by intro n hn; cases n <;> simp_all [Node.isFor, registered, Node.isBinary]) E hE
    have hcomm : E.count Node.isComm = 0 :=
      count_eq_zero_of_imp _ _ (by intro n hn; cases n <;> simp_all [Node.isComm, registered, Node.isBinary]) E hE
    have hcase : E.count Node.isCase = 0 :=
      count_eq_zero_of_imp _ _ (by intro n hn; cases n <;> simp_all [Node.isCase, registered, Node.isBinary]) E hE
    have hev : ∀ e ∈ Nodes registered E, e.1.isFuncDecl = true → e.2 = true := by
      intro e he hf
      rw [count_eq_zero_of_mem_Nodes registered Node.isFuncDecl E hfd e he] at hf
      cases hf
    refine ⟨_, runEvents_no_exit limit Defs s _ hev, ?_⟩
    simp only
    rw [totalAfter_Nodes s.c E hfd, hif, hfor, hcomm, caseValues_eq_zero E hcase]
    simp

/-- C7 (witness): the expression `a && b || c` adds 2 to a running total of 1,
and a function whose only decision content is that expression scores 3. -/
theorem C7_logical_operators_add_one_each_witness :
    logicalExpr.count (fun n => registered n && !n.isBinary) = 0 ∧
    (add 1 (Node.BinaryExpr Token.LAND) =
        (if Token.LAND = Token.LAND ∨ Token.LAND = Token.LOR then (1 : Int) + 1 else 1) ∧
      callback 10 sampleDefs { c := 1, acc := fun _ => none, facts := [], diags := [] }
        (Node.BinaryExpr Token.LAND, false) =
          some { c := 1, acc := fun _ => none, facts := [], diags := [] } ∧
      ∃ s1, runEvents 10 sampleDefs { c := 1, acc := fun _ => none, facts := [], diags := [] }
          (Nodes registered logicalExpr) = some s1 ∧
        s1.c = 1 + (logicalExpr.count Node.isLogical : Int)) ∧
    logicalExpr.count Node.isLogical = 2 ∧
    (run 10 sampleDefs (funcDecl { ptr := 1 } 100 returnLogical Forest.nil)).map
      (fun s => s.acc { ptr := 1 }) = some (some 3) :=
  ⟨by decide,
    C7_logical_operators_add_one_each 10 sampleDefs
      { c := 1, acc := fun _ => none, facts := [], diags := [] } Token.LAND logicalExpr
      (by decide),
    by decide, by decide⟩

/-- C8: a range loop (`*ast.RangeStmt`) is not among the node types delivered
to the callback and `add` leaves the running total unchanged on it, whereas a
`for` statement (`*ast.ForStmt`) is delivered and adds 1: a function whose
body is one range loop scores 1, a function whose body is one `for` statement
scores 2. -/
theorem C8_range_loop_is_not_counted :
    registered Node.RangeStmt = false ∧
    (∀ c : Complexity, add c Node.RangeStmt = c) ∧
    registered Node.ForStmt = true ∧
    (∀ c : Complexity, add c Node.ForStmt = c + 1) ∧
    (run 10 sampleDefs (funcDecl { ptr := 1 } 100 rangeLoop Forest.nil)).map
      (fun s => s.acc { ptr := 1 }) = some (some 1) ∧
    (run 10 sampleDefs (funcDecl { ptr := 1 } 100 forLoop Forest.nil)).map
      (fun s => s.acc { ptr := 1 }) = some (some 2) :=
  ⟨rfl, fun _ => rfl, rfl, fun _ => rfl, by decide, by decide⟩

/-- C9: entering a communication clause adds exactly 1 to the running total
whatever the clause holds, the default arm (no communication) included,
whereas the default arm of a switch adds nothing; the exit of the clause
changes nothing; and a function whose only decision content is a select with
two communication arms and a default arm scores 1 + 3 = 4. -/
theorem C9_comm_clause_adds_one :
    (∀ (c : Complexity) (comm : Option Stmt), add c (Node.CommClause comm) = c + 1) ∧
    (∀ c : Complexity, add c (Node.CommClause none) = c + 1 ∧ add c (Node.CaseClause []) = c) ∧
    (∀ (limit : Int) (Defs : Ident → Option Object) (s : State) (comm : Option Stmt),
      callback limit Defs s (Node.CommClause comm, true) =
          some { c := s.c + 1, acc := s.acc, facts := s.facts, diags := s.diags } ∧
        callback limit Defs s (Node.CommClause comm, false) = some s) ∧
    (∀ comm : Option Stmt, registered (Node.CommClause comm) = true) ∧
    (run 10 sampleDefs (funcDecl { ptr := 1 } 100 selectBody Forest.nil)).map
      (fun s => s.acc { ptr := 1 }) = some (some 4) := by
  refine ⟨fun c comm => rfl, fun c => ⟨rfl, ?_⟩, fun limit Defs s comm => ⟨rfl, rfl⟩,
    fun comm => rfl, by decide⟩
  simp [add]

/-! ## The diagnostic message -/

/-- C10 (counterexample): for the function `f` with score 12 and limit 10 the
message emitted by `report` is "cyclomatic complexity of f exceeded limit
12 > 10", not "cyclomatic complexity of f exceeded limit 10 — got 12". -/
theorem C10_message_counterexample :
    (report 10 sampleDefs { c := 12, acc := fun _ => none, facts := [], diags := [] }
        (Node.FuncDecl { ptr := 1 } 100)).map (fun s => s.diags) =
      some [{ pos := 100, message := "cyclomatic complexity of f exceeded limit 12 > 10" }] ∧
    (report 10 sampleDefs { c := 12, acc := fun _ => none, facts := [], diags := [] }
        (Node.FuncDecl { ptr := 1 } 100)).map (fun s => s.diags) ≠
      some [{ pos := 100, message := "cyclomatic complexity of f exceeded limit 10 — got 12" }] := by
  constructor <;> decide

/-- C10 (amended): for a function named n with score s and a limit l with
s > l, `report` emits, at the position of the declaration, the message
"cyclomatic complexity of n exceeded limit s > l": the number that follows
the words "exceeded limit" is the score, the number after ">" is the limit. -/
theorem C10_message_is_score_then_limit (limit : Int) (Defs : Ident → Option Object)
    (s : State) (name : Ident) (pos : Pos) (f : Func)
    (hf : Defs name = some (Object.ofFunc f)) (hlt : limit < s.c) :
    ∃ s1, report limit Defs s (Node.FuncDecl name pos) = some s1 ∧
      s1.diags = s.diags ++ [{ pos := pos, message :=
        ("cyclomatic complexity of " ++ f.name ++ " exceeded limit " ++ toString s.c
          ++ " > " ++ toString limit) }] := by
  refine ⟨_, report_resolved limit Defs s name pos f hf, ?_⟩
  have : s.c > limit := hlt
  simp [this, reportMessage]

/-- C10 (witness): name f, score 12, limit 10. -/
theorem C10_message_is_score_then_limit_witness :
    sampleDefs { ptr := 1 } = some (Object.ofFunc { ptr := 1, name := "f" }) ∧ (10 : Int) < 12 ∧
    ∃ s1, report 10 sampleDefs { c := 12, acc := fun _ => none, facts := [], diags := [] }
        (Node.FuncDecl { ptr := 1 } 100) = some s1 ∧
      s1.diags = [{ pos := 100, message := "cyclomatic complexity of f exceeded limit 12 > 10" }] :=
  ⟨by decide, by decide,
    C10_message_is_score_then_limit 10 sampleDefs
      { c := 12, acc := fun _ => none, facts := [], diags := [] } { ptr := 1 } 100
      { ptr := 1, name := "f" } (by decide) (by decide)⟩

/-! ## Failure of `report` -/

theorem report_eq_reportEffects (limit : Int) (Defs : Ident → Option Object) (s : State)
    (n : Node) : report limit Defs s n = (reportEffects limit Defs s n).toOption := by
  unfold report reportEffects
  split
  · split
    · simp only
      split <;> rfl
    · rfl
  · rfl

theorem isFunc_eq_false (o : Option Object) (h : isFunc o = false) :
    ∀ f, o ≠ some (Object.ofFunc f) := by
  intro f hf
  rw [hf] at h
  simp [isFunc] at h

theorem reportEffects_unresolved (limit : Int) (Defs : Ident → Option Object) (s : State)
    (name : Ident) (pos : Pos) (h : ∀ f, Defs name ≠ some (Object.ofFunc f)) :
    reportEffects limit Defs s (Node.FuncDecl name pos) =
      Except.error { c := s.c, acc := fun k => if k = name then some s.c else s.acc k,
                     facts := s.facts, diags := s.diags } := by
  simp only [reportEffects]

/-- C11: `report` on the exit of a function declaration fails if and only if
the identifier does not resolve to a function object (no object recorded, or
an object that is not a function); at the failure the exported facts and the
diagnostics are as they were before the call; and when the identifier
resolves to a function the call returns. -/
theorem C11_report_fails_iff_unresolved (limit : Int) (Defs : Ident → Option Object)
    (s : State) (name : Ident) (pos : Pos) :
    (report limit Defs s (Node.FuncDecl name pos) = none ↔ isFunc (Defs name) = false) ∧
    (Defs name = none → report limit Defs s (Node.FuncDecl name pos) = none) ∧
    (∀ kind, Defs name = some (Object.other kind) →
      report limit Defs s (Node.FuncDecl name pos) = none) ∧
    (isFunc (Defs name) = false →
      ∃ s1, reportEffects limit Defs s (Node.FuncDecl name pos) = Except.error s1 ∧
        s1.facts = s.facts ∧ s1.diags = s.diags) ∧
    (∀ f, Defs name = some (Object.ofFunc f) →
      ∃ s1, report limit Defs s (Node.FuncDecl name pos) = some s1 ∧
        reportEffects limit Defs s (Node.FuncDecl name pos) = Except.ok s1) := by
  refine ⟨?_, ?_, ?_, ?_, ?_⟩
  · constructor
    · intro h
      cases hf : isFunc (Defs name) with
      | false => rfl
      | true =>
        obtain ⟨f, hd⟩ := isFunc_eq_true _ hf
        rw [report_resolved limit Defs s name pos f hd] at h
        cases h
    · intro h
      exact report_unresolved limit Defs s name pos (isFunc_eq_false _ h)
  · intro h
    exact report_unresolved limit Defs s name pos (by simp [h])
  · intro kind h
    exact report_unresolved limit Defs s name pos (by simp [h])
  · intro h
    exact ⟨_, reportEffects_unresolved limit Defs s name pos (isFunc_eq_false _ h), rfl, rfl⟩
  · intro f hf
    refine ⟨_, report_resolved limit Defs s name pos f hf, ?_⟩
    simp only [reportEffects, hf]
    split <;> simp_all

/-- C11 (witness): identifier 3 is a variable and identifier 4 has no object,
so `report` fails on both and a unit that declares identifier 3 makes `run`
fail; identifier 1 is a function and `report` returns. -/
theorem C11_report_fails_iff_unresolved_witness :
    ((report 10 sampleDefs State.init (Node.FuncDecl { ptr := 3 } 100) = none ↔
        isFunc (sampleDefs { ptr := 3 }) = false) ∧
      (sampleDefs { ptr := 3 } = none →
        report 10 sampleDefs State.init (Node.FuncDecl { ptr := 3 } 100) = none) ∧
      (∀ kind, sampleDefs { ptr := 3 } = some (Object.other kind) →
        report 10 sampleDefs State.init (Node.FuncDecl { ptr := 3 } 100) = none) ∧
      (isFunc (sampleDefs { ptr := 3 }) = false →
        ∃ s1, reportEffects 10 sampleDefs State.init (Node.FuncDecl { ptr := 3 } 100)
            = Except.error s1 ∧
          s1.facts = State.init.facts ∧ s1.diags = State.init.diags) ∧
      (∀ f, sampleDefs { ptr := 3 } = some (Object.ofFunc f) →
        ∃ s1, report 10 sampleDefs State.init (Node.FuncDecl { ptr := 3 } 100) = some s1 ∧
          reportEffects 10 sampleDefs State.init (Node.FuncDecl { ptr := 3 } 100)
            = Except.ok s1)) ∧
    isFunc (sampleDefs { ptr := 3 }) = false ∧
    isFunc (sampleDefs { ptr := 4 }) = false ∧
    isFunc (sampleDefs { ptr := 1 }) = true ∧
    (run 10 sampleDefs (funcDecl { ptr := 3 } 100 selectBody Forest.nil)).isNone = true :=
  ⟨C11_report_fails_iff_unresolved 10 sampleDefs State.init { ptr := 3 } 100,
    by decide, by decide, by decide, by decide⟩

/-! ## Enter and exit events -/

/-- C16: whatever the running total is, `add` on a function declaration sets
it to exactly 1, and so does the enter event of a function declaration; in
the sample unit the second function scores 1 although the first one had
accumulated 12. -/
theorem C16_function_declaration_resets_total :
    (∀ (v : Complexity) (name : Ident) (pos : Pos), add v (Node.FuncDecl name pos) = 1) ∧
    (∀ (limit : Int) (Defs : Ident → Option Object) (s : State) (name : Ident) (pos : Pos),
      callback limit Defs s (Node.FuncDecl name pos, true) =
        some { c := 1, acc := s.acc, facts := s.facts, diags := s.diags }) ∧
    add 0 (Node.FuncDecl { ptr := 1 } 100) = 1 ∧
    add 12 (Node.FuncDecl { ptr := 1 } 100) = 1 ∧
    add (-5) (Node.FuncDecl { ptr := 1 } 100) = 1 ∧
    (run 10 sampleDefs sampleUnit).map (fun s => (s.acc { ptr := 1 }, s.acc { ptr := 2 })) =
      some (some 12, some 1) :=
  ⟨fun _ _ _ => rfl, fun _ _ _ _ _ => rfl, rfl, rfl, rfl, by decide⟩

theorem reportEffects_c (limit : Int) (Defs : Ident → Option Object) (s : State) (n : Node) :
    (stateOf (reportEffects limit Defs s n)).c = s.c := by
  unfold reportEffects
  split
  · split
    · simp only
      split <;> rfl
    · rfl
  · rfl

theorem reportEffects_other (limit : Int) (Defs : Ident → Option Object) (s : State) (n : Node)
    (h : n.isFuncDecl = false) : reportEffects limit Defs s n = Except.ok s := by
  cases n <;> first | rfl | simp [Node.isFuncDecl] at h

/-- C17: for every node `n` and every state, `report` leaves the running
total as it was, whether it returns or fails, and so does every exit event;
and for a node `m` that is not a function declaration `report` returns with
the running total, the result mapping, the exported facts and the diagnostics
all unchanged. -/
theorem C17_exit_leaves_total_unchanged (limit : Int) (Defs : Ident → Option Object)
    (s : State) (n m : Node) (hm : m.isFuncDecl = false) :
    (stateOf (reportEffects limit Defs s n)).c = s.c ∧
    (∀ s1, report limit Defs s n = some s1 → s1.c = s.c) ∧
    (∀ s1, callback limit Defs s (n, false) = some s1 → s1.c = s.c) ∧
    reportEffects limit Defs s m = Except.ok s ∧
    report limit Defs s m = some s ∧
    callback limit Defs s (m, false) = some s := by
  refine ⟨reportEffects_c limit Defs s n, fun s1 h => report_c limit Defs s s1 n h, ?_,
    reportEffects_other limit Defs s m hm, report_other limit Defs s m hm, ?_⟩
  · intro s1 h
    have := callback_c limit Defs s s1 (n, false) h
    simpa using this
  · simp only [callback, Bool.false_eq_true, if_false]
    exact report_other limit Defs s m hm

/-- C17 (witness): the exit of a function declaration at a running total of
12 and the exit of an if statement. -/
theorem C17_exit_leaves_total_unchanged_witness :
    Node.IfStmt.isFuncDecl = false ∧
    (stateOf (reportEffects 10 sampleDefs { c := 12, acc := fun _ => none, facts := [], diags := [] }
        (Node.FuncDecl { ptr := 1 } 100))).c = 12 ∧
    reportEffects 10 sampleDefs { c := 12, acc := fun _ => none, facts := [], diags := [] }
        Node.IfStmt =
      Except.ok { c := 12, acc := fun _ => none, facts := [], diags := [] } :=
  have h := C17_exit_leaves_total_unchanged 10 sampleDefs
    { c := 12, acc := fun _ => none, facts := [], diags := [] }
    (Node.FuncDecl { ptr := 1 } 100) Node.IfStmt (by decide)
  ⟨by decide, h.1, h.2.2.2.1⟩

/-! ## The limit and the range of the scores -/

theorem diagOf_pos_sublist (l1 l2 : Int) (Defs : Ident → Option Object) (hle : l1 ≤ l2)
    (log : List (Ident × Pos × Complexity)) :
    ((log.filterMap (diagOf l2 Defs)).map (fun d => d.pos)).Sublist
      ((log.filterMap (diagOf l1 Defs)).map (fun d => d.pos)) := by
  induction log with
  | nil => simp
  | cons x xs ih =>
    cases h2 : diagOf l2 Defs x with
    | none =>
      rw [List.filterMap_cons_none h2]
      cases h1 : diagOf l1 Defs x with
      | none =>
        rw [List.filterMap_cons_none h1]
        exact ih
      | some d1 =>
        rw [List.filterMap_cons_some h1, List.map_cons]
        exact List.Sublist.cons _ ih
    | some d2 =>
      obtain ⟨hlt, hpos, f, hf, -⟩ := diagOf_eq_some l2 Defs x d2 h2
      have h1 := diagOf_of_resolved l1 Defs x f hf (lt_of_le_of_lt hle hlt)
      rw [List.filterMap_cons_some h2, List.filterMap_cons_some h1, List.map_cons, List.map_cons,
        hpos]
      exact List.Sublist.cons₂ _ ih

/-- C13: for a unit whose declarations resolve and limits l1 ≤ l2, both runs
return, with the same result mapping and the same exported facts, and the
positions that receive a diagnostic under l2 form a sublist of those that
receive one under l1: every declaration diagnosed under the higher limit is
diagnosed under the lower one. -/
theorem C13_lower_limit_only_adds_diagnostics (l1 l2 : Int) (Defs : Ident → Option Object)
    (files : Forest) (hle : l1 ≤ l2) (hres : files.resolved Defs = true) :
    ∃ r1 r2, run l1 Defs files = some r1 ∧ run l2 Defs files = some r2 ∧
      r1.acc = r2.acc ∧ r1.facts = r2.facts ∧
      (r2.diags.map (fun d => d.pos)).Sublist (r1.diags.map (fun d => d.pos)) ∧
      (∀ d ∈ r2.diags, ∃ d1 ∈ r1.diags, d1.pos = d.pos) := by
  refine ⟨_, _, run_eq l1 Defs files hres, run_eq l2 Defs files hres, rfl, rfl, ?_, ?_⟩
  · exact diagOf_pos_sublist l1 l2 Defs hle _
  · intro d hd
    have hsub := (diagOf_pos_sublist l1 l2 Defs hle (exitLog 0 (Nodes registered files))).subset
    have hm : d.pos ∈ ((exitLog 0 (Nodes registered files)).filterMap (diagOf l2 Defs)).map
        (fun d => d.pos) := List.mem_map_of_mem _ hd
    obtain ⟨d1, hd1, hp⟩ := List.mem_map.mp (hsub hm)
    exact ⟨d1, hd1, hp⟩

/-- C13 (witness): the sample unit under the limits 0 and 10. -/
theorem C13_lower_limit_only_adds_diagnostics_witness :
    (0 : Int) ≤ 10 ∧ sampleUnit.resolved sampleDefs = true ∧
    ∃ r1 r2, run 0 sampleDefs sampleUnit = some r1 ∧ run 10 sampleDefs sampleUnit = some r2 ∧
      r1.acc = r2.acc ∧ r1.facts = r2.facts ∧
      (r2.diags.map (fun d => d.pos)).Sublist (r1.diags.map (fun d => d.pos)) ∧
      (∀ d ∈ r2.diags, ∃ d1 ∈ r1.diags, d1.pos = d.pos) :=
  ⟨by decide, by decide,
    C13_lower_limit_only_adds_diagnostics 0 10 sampleDefs sampleUnit (by decide) (by decide)⟩

theorem one_le_add (c : Int) (n : Node) (h : 1 ≤ c) : 1 ≤ add c n := by
  have h0 : (0 : Int) ≤ c := le_trans (by decide) h
  cases n with
  | BinaryExpr op =>
    cases op <;> simp [add] <;> first | exact h | exact h0
  | CaseClause l =>
    have hl : (0 : Int) ≤ (l.length : Int) := Nat.cast_nonneg _
    simp only [add]
    exact le_trans h (le_add_of_nonneg_right hl)
  | FuncDecl name pos => exact le_refl _
  | IfStmt => exact le_trans h (le_add_of_nonneg_right (by decide))
  | ForStmt => exact le_trans h (le_add_of_nonneg_right (by decide))
  | CommClause comm => exact le_trans h (le_add_of_nonneg_right (by decide))
  | FuncLit => exact h
  | RangeStmt => exact h
  | Other kind => exact h

theorem one_le_totalAfter (c : Int) (evs : List (Node × Bool)) (h : 1 ≤ c) :
    1 ≤ totalAfter c evs := by
  induction evs generalizing c with
  | nil => exact h
  | cons e es ih =>
    simp only [totalAfter]
    apply ih
    split
    · exact one_le_add c e.1 h
    · exact h

theorem one_le_exitLog_Nodes (c : Complexity) (F : Forest) :
    ∀ x ∈ exitLog c (Nodes registered F), 1 ≤ x.2.2 := by
  induction F generalizing c with
  | nil => intro x hx; simp [Nodes, exitLog] at hx
  | cons n children siblings ihc ihs =>
    intro x hx
    cases hr : registered n with
    | false =>
      rw [Nodes_cons_of_not_registered _ _ _ _ hr, exitLog_append] at hx
      rcases List.mem_append.mp hx with hx | hx
      · exact ihc _ x hx
      · exact ihs _ x hx
    | true =>
      rw [Nodes_cons_of_registered _ _ _ _ hr, exitLog_push, exitLog_append] at hx
      rcases List.mem_append.mp hx with hx | hx
      · exact ihc _ x hx
      · simp only [exitLog, Bool.false_eq_true, if_false] at hx
        cases hd : n.decl with
        | none =>
          rw [hd] at hx
          exact ihs _ x hx
        | some d =>
          rw [hd] at hx
          rcases List.mem_cons.mp hx with hx | hx
          · rw [hx]
            apply one_le_totalAfter
            rw [decl_eq_some n d hd]
            exact le_refl _
          · exact ihs _ x hx

theorem accOf_eq_some (m : Ident → Option Complexity) (log : List (Ident × Pos × Complexity))
    (k : Ident) (v : Complexity) (h : accOf m log k = some v) :
    m k = some v ∨ ∃ x ∈ log, x.1 = k ∧ x.2.2 = v := by
  induction log generalizing m with
  | nil => exact Or.inl h
  | cons x xs ih =>
    simp only [accOf] at h
    rcases ih _ h with h1 | ⟨y, hy, hy1, hy2⟩
    · by_cases hk : k = x.1
      · simp only [hk, if_true] at h1
        exact Or.inr ⟨x, List.mem_cons_self _ _, hk.symm, Option.some.inj h1⟩
      · simp only [hk, if_false] at h1
        exact Or.inl h1
    · exact Or.inr ⟨y, List.mem_cons_of_mem _ hy, hy1, hy2⟩

theorem diagOf_pos_of_all (limit : Int) (Defs : Ident → Option Object)
    (log : List (Ident × Pos × Complexity))
    (h : ∀ x ∈ log, ∃ d, diagOf limit Defs x = some d) :
    (log.filterMap (diagOf limit Defs)).map (fun d => d.pos) = log.map (fun x => x.2.1) := by
  induction log with
  | nil => rfl
  | cons x xs ih =>
    obtain ⟨d, hd⟩ := h x (List.mem_cons_self _ _)
    obtain ⟨-, hpos, -⟩ := diagOf_eq_some limit Defs x d hd
    rw [List.filterMap_cons_some hd, List.map_cons, List.map_cons, hpos,
      ih (fun y hy => h y (List.mem_cons_of_mem _ hy))]

/-- C14: for a unit (a forest, so every exit follows its enter) whose
declarations resolve, `run` returns and every score in the result mapping and
every exported fact is at least 1; with limit 0 the positions of the
diagnostics are, up to order, the positions of the function declarations of
the unit, so every declaration has a diagnostic. -/
theorem C14_scores_at_least_one (limit : Int) (Defs : Ident → Option Object) (files : Forest)
    (hres : files.resolved Defs = true) :
    ∃ final final0, run limit Defs files = some final ∧ run 0 Defs files = some final0 ∧
      (∀ k v, final.acc k = some v → 1 ≤ v) ∧
      (∀ f v, (f, v) ∈ final.facts → 1 ≤ v) ∧
      (final0.diags.map (fun d => d.pos)).Perm (files.funcDecls.map Prod.snd) ∧
      (∀ p ∈ files.funcDecls, ∃ d ∈ final0.diags, d.pos = p.2) := by
  have hone := one_le_exitLog_Nodes 0 files
  have hall : ∀ x ∈ exitLog 0 (Nodes registered files), ∃ d, diagOf 0 Defs x = some d := by
    intro x hx
    obtain ⟨f, hf⟩ := resolved_exitLog Defs 0 files hres x hx
    exact ⟨_, diagOf_of_resolved 0 Defs x f hf (lt_of_lt_of_le (by decide) (hone x hx))⟩
  have hperm : (((exitLog 0 (Nodes registered files)).filterMap (diagOf 0 Defs)).map
      (fun d => d.pos)).Perm (files.funcDecls.map Prod.snd) := by
    rw [diagOf_pos_of_all 0 Defs _ hall]
    have hp := (exitLog_Nodes_perm 0 files).map Prod.snd
    rw [List.map_map] at hp
    exact hp
  refine ⟨_, _, run_eq limit Defs files hres, run_eq 0 Defs files hres, ?_, ?_, hperm, ?_⟩
  · intro k v hv
    rcases accOf_eq_some _ _ k v hv with h | ⟨x, hx, -, hxv⟩
    · cases h
    · rw [← hxv]
      exact hone x hx
  · intro f v hfv
    obtain ⟨x, hx, hxf⟩ := List.mem_filterMap.mp hfv
    obtain ⟨-, hv⟩ := (factOf_eq_some Defs x f v).mp hxf
    rw [hv]
    exact hone x hx
  · intro p hp
    have hm : p.2 ∈ files.funcDecls.map Prod.snd := List.mem_map_of_mem _ hp
    obtain ⟨d, hd, hdp⟩ := List.mem_map.mp (hperm.mem_iff.mpr hm)
    exact ⟨d, hd, hdp⟩

/-- C14 (witness): the sample unit. -/
theorem C14_scores_at_least_one_witness :
    sampleUnit.resolved sampleDefs = true ∧
    ∃ final final0, run 10 sampleDefs sampleUnit = some final ∧
      run 0 sampleDefs sampleUnit = some final0 ∧
      (∀ k v, final.acc k = some v → 1 ≤ v) ∧
      (∀ f v, (f, v) ∈ final.facts → 1 ≤ v) ∧
      (final0.diags.map (fun d => d.pos)).Perm (sampleUnit.funcDecls.map Prod.snd) ∧
      (∀ p ∈ sampleUnit.funcDecls, ∃ d ∈ final0.diags, d.pos = p.2) :=
  ⟨by decide, C14_scores_at_least_one 10 sampleDefs sampleUnit (by decide)⟩

/-! ## Independence from the earlier events -/

theorem exitLog_Nodes_indep (c1 c2 : Complexity) (F : Forest) :
    exitLog c1 (Nodes registered F) = exitLog c2 (Nodes registered F) := by
  induction F generalizing c1 c2 with
  | nil => rfl
  | cons n children siblings ihc ihs =>
    cases hr : registered n with
    | false =>
      rw [Nodes_cons_of_not_registered _ _ _ _ hr, exitLog_append, exitLog_append,
        ihc c1 c2, ihs (totalAfter c1 _) (totalAfter c2 (Nodes registered children))]
    | true =>
      rw [Nodes_cons_of_registered _ _ _ _ hr, exitLog_push, exitLog_push, exitLog_append,
        exitLog_append]
      cases hd : n.decl with
      | none =>
        rw [exitLog_exit_other _ _ _ hd, exitLog_exit_other _ _ _ hd,
          ihc (add c1 n) (add c2 n),
          ihs (totalAfter (add c1 n) _) (totalAfter (add c2 n) (Nodes registered children))]
      | some d =>
        rw [decl_eq_some n d hd]
        rfl

theorem exitLog_decl_tree (c : Complexity) (name : Ident) (pos : Pos) (body : Forest) :
    exitLog c (Nodes registered (Forest.cons (Node.FuncDecl name pos) body Forest.nil)) =
      exitLog 1 (Nodes registered body) ++
        [(name, pos, totalAfter 1 (Nodes registered body))] := by
  have hadd : add c (Node.FuncDecl name pos) = 1 := rfl
  rw [Nodes_cons_of_registered _ _ _ _ (by rfl), exitLog_push, exitLog_append, hadd]
  simp [exitLog, Node.decl, Nodes]

/-- C15: the walk of one function declaration (from its enter event to its
exit event), started in any two states, in particular the states reached
after any two sequences of earlier events, succeeds in both, stores the same
score for the declaration, appends the same facts, among them the fact of the
declaration with that score, and appends the same diagnostics. -/
theorem C15_score_depends_only_on_own_events (limit : Int) (Defs : Ident → Option Object)
    (s1 s2 : State) (name : Ident) (pos : Pos) (body : Forest)
    (hres : (Forest.cons (Node.FuncDecl name pos) body Forest.nil).resolved Defs = true) :
    ∃ t1 t2 v f fs ds,
      runEvents limit Defs s1
        (Nodes registered (Forest.cons (Node.FuncDecl name pos) body Forest.nil)) = some t1 ∧
      runEvents limit Defs s2
        (Nodes registered (Forest.cons (Node.FuncDecl name pos) body Forest.nil)) = some t2 ∧
      t1.acc name = some v ∧ t2.acc name = some v ∧ t1.c = t2.c ∧
      Defs name = some (Object.ofFunc f) ∧ (f, v) ∈ fs ∧
      t1.facts = s1.facts ++ fs ∧ t2.facts = s2.facts ++ fs ∧
      t1.diags = s1.diags ++ ds ∧ t2.diags = s2.diags ++ ds := by
  have hr1 := resolved_exitLog Defs s1.c _ hres
  have hr2 := resolved_exitLog Defs s2.c _ hres
  have hl1 := exitLog_decl_tree s1.c name pos body
  have hl2 := exitLog_decl_tree s2.c name pos body
  have hmem : (name, pos, totalAfter 1 (Nodes registered body)) ∈
      exitLog s1.c (Nodes registered (Forest.cons (Node.FuncDecl name pos) body Forest.nil)) := by
    rw [hl1]
    exact List.mem_append_right _ (List.mem_singleton_self _)
  obtain ⟨f, hf⟩ := hr1 _ hmem
  have ht : ∀ c : Complexity,
      totalAfter c (Nodes registered (Forest.cons (Node.FuncDecl name pos) body Forest.nil)) =
        totalAfter 1 (Nodes registered body) := by
    intro c
    rw [Nodes_cons_of_registered _ _ _ _ (by rfl)]
    simp [totalAfter, totalAfter_append, add, Nodes]
  refine ⟨_, _, totalAfter 1 (Nodes registered body), f,
    (exitLog 1 (Nodes registered body) ++
      [(name, pos, totalAfter 1 (Nodes registered body))]).filterMap (factOf Defs),
    (exitLog 1 (Nodes registered body) ++
      [(name, pos, totalAfter 1 (Nodes registered body))]).filterMap (diagOf limit Defs),
    runEvents_eq limit Defs s1 _ hr1, runEvents_eq limit Defs s2 _ hr2, ?_, ?_, ?_, hf, ?_,
    ?_, ?_, ?_, ?_⟩
  · simp only
    rw [hl1]
    exact accOf_last _ _ [] name pos _ (by simp)
  · simp only
    rw [hl2]
    exact accOf_last _ _ [] name pos _ (by simp)
  · simp only
    rw [ht, ht]
  · apply List.mem_filterMap.mpr
    refine ⟨(name, pos, totalAfter 1 (Nodes registered body)),
      List.mem_append_right _ (List.mem_singleton_self _), ?_⟩
    exact (factOf_eq_some Defs _ f _).mpr ⟨hf, rfl⟩
  · simp only
    rw [hl1]
  · simp only
    rw [hl2]
  · simp only
    rw [hl1]
  · simp only
    rw [hl2]

/-- C15 (witness): the function `g` of the sample unit, walked from the
initial state and from a state left by a function of score 12. -/
theorem C15_score_depends_only_on_own_events_witness :
    (Forest.cons (Node.FuncDecl { ptr := 2 } 200) switchBody Forest.nil).resolved sampleDefs
      = true ∧
    ∃ t1 t2 v f fs ds,
      runEvents 10 sampleDefs State.init
        (Nodes registered (Forest.cons (Node.FuncDecl { ptr := 2 } 200) switchBody Forest.nil))
          = some t1 ∧
      runEvents 10 sampleDefs
        { c := 12, acc := fun _ => some 12, facts := [({ ptr := 1, name := "f" }, 12)],
          diags := [] }
        (Nodes registered (Forest.cons (Node.FuncDecl { ptr := 2 } 200) switchBody Forest.nil))
          = some t2 ∧
      t1.acc { ptr := 2 } = some v ∧ t2.acc { ptr := 2 } = some v ∧ t1.c = t2.c ∧
      sampleDefs { ptr := 2 } = some (Object.ofFunc f) ∧ (f, v) ∈ fs ∧
      t1.facts = State.init.facts ++ fs ∧
      t2.facts = [({ ptr := 1, name := "f" }, (12 : Complexity))] ++ fs ∧
      t1.diags = State.init.diags ++ ds ∧ t2.diags = [] ++ ds :=
  ⟨by decide,
    C15_score_depends_only_on_own_events 10 sampleDefs State.init
      { c := 12, acc := fun _ => some 12, facts := [({ ptr := 1, name := "f" }, 12)],
        diags := [] }
      { ptr := 2 } 200 switchBody (by decide)⟩

/-! ## One more branch -/

theorem exitLog_no_decl (c : Complexity) (evs : List (Node × Bool))
    (h : ∀ e ∈ evs, e.1.isFuncDecl = false) : exitLog c evs = [] := by
  induction evs generalizing c with
  | nil => rfl
  | cons e es ih =>
    have he := h e (List.mem_cons_self _ _)
    have hes : ∀ x ∈ es, x.1.isFuncDecl = false := fun x hx => h x (List.mem_cons_of_mem _ hx)
    have hd : e.1.decl = none := by
      cases hn : e.1 <;> first | rfl | (rw [hn] at he; simp [Node.isFuncDecl] at he)
    simp only [exitLog, hd]
    split
    · exact ih _ hes
    · exact ih _ hes

theorem add_shift (c d : Int) (n : Node) (h : n.isFuncDecl = false) :
    add (c + d) n = add c n + d := by
  cases n with
  | FuncDecl name pos => simp [Node.isFuncDecl] at h
  | BinaryExpr op => cases op <;> simp [add] <;> ring
  | CaseClause l => simp only [add]; ring
  | IfStmt => simp only [add]; ring
  | ForStmt => simp only [add]; ring
  | CommClause comm => simp only [add]; ring
  | FuncLit => rfl
  | RangeStmt => rfl
  | Other kind => rfl

theorem totalAfter_shift (c d : Int) (evs : List (Node × Bool))
    (h : ∀ e ∈ evs, e.1.isFuncDecl = false) :
    totalAfter (c + d) evs = totalAfter c evs + d := by
  induction evs generalizing c with
  | nil => rfl
  | cons e es ih =>
    have he := h e (List.mem_cons_self _ _)
    have hes : ∀ x ∈ es, x.1.isFuncDecl = false := fun x hx => h x (List.mem_cons_of_mem _ hx)
    simp only [totalAfter]
    cases hp : e.2 with
    | true =>
      simp only [if_true]
      rw [add_shift c d e.1 he]
      exact ih _ hes
    | false =>
      simp only [Bool.false_eq_true, if_false]
      exact ih _ hes

theorem accOf_congr (m1 m2 : Ident → Option Complexity) (xs : List (Ident × Pos × Complexity))
    (k : Ident) (h : m1 k = m2 k) : accOf m1 xs k = accOf m2 xs k := by
  induction xs generalizing m1 m2 with
  | nil => exact h
  | cons x xs ih =>
    simp only [accOf]
    apply ih
    simp only [h]

theorem exitLog_declEvents (c : Complexity) (name : Ident) (pos : Pos)
    (body : List (Node × Bool)) (h : ∀ e ∈ body, e.1.isFuncDecl = false) :
    exitLog c (declEvents name pos body) = [(name, pos, totalAfter 1 body)] := by
  have hadd : add c (Node.FuncDecl name pos) = 1 := rfl
  unfold declEvents
  rw [exitLog_push, exitLog_append, hadd, exitLog_no_decl 1 body h]
  simp [exitLog, Node.decl]

theorem exitLog_around_decl (before after : Forest) (name : Ident) (pos : Pos)
    (body : List (Node × Bool)) (h : ∀ e ∈ body, e.1.isFuncDecl = false) :
    exitLog 0 (Nodes registered before ++ declEvents name pos body ++ Nodes registered after) =
      exitLog 0 (Nodes registered before) ++
        (name, pos, totalAfter 1 body) :: exitLog 0 (Nodes registered after) := by
  rw [exitLog_append, exitLog_append, exitLog_declEvents _ name pos body h,
    exitLog_Nodes_indep _ 0 after]
  simp

theorem run_around_decl (limit : Int) (Defs : Ident → Option Object) (files before after : Forest)
    (name : Ident) (pos : Pos) (f : Func) (body : List (Node × Bool))
    (hu : Nodes registered files =
      Nodes registered before ++ declEvents name pos body ++ Nodes registered after)
    (hf : Defs name = some (Object.ofFunc f))
    (hb : ∀ e ∈ body, e.1.isFuncDecl = false)
    (hbefore : before.resolved Defs = true) (hafter : after.resolved Defs = true) :
    ∃ r, run limit Defs files = some r ∧
      r.acc = accOf (fun _ => none) (exitLog 0 (Nodes registered before) ++
        (name, pos, totalAfter 1 body) :: exitLog 0 (Nodes registered after)) := by
  have hlog := exitLog_around_decl before after name pos body hb
  have hres : ∀ x ∈ exitLog State.init.c (Nodes registered files),
      ∃ g, Defs x.1 = some (Object.ofFunc g) := by
    intro x hx
    have hx2 : x ∈ exitLog 0 (Nodes registered files) := hx
    rw [hu, hlog] at hx2
    rcases List.mem_append.mp hx2 with hx2 | hx2
    · exact resolved_exitLog Defs 0 before hbefore x hx2
    · rcases List.mem_cons.mp hx2 with hx2 | hx2
      · rw [hx2]; exact ⟨f, hf⟩
      · exact resolved_exitLog Defs 0 after hafter x hx2
  refine ⟨_, runEvents_eq limit Defs State.init _ hres, ?_⟩
  show accOf (fun _ => none) (exitLog 0 (Nodes registered files)) = _
  rw [hu, hlog]

/-- C12: let a unit contain the function declaration `name`, whose subtree
holds no other function declaration (function declarations do not nest), its
events preceded by the events of the trees `before` and followed by the
events of the trees `after`, where `name` is not declared again.  Inserting
the enter and the exit event of one more if statement anywhere between the
enter and the exit of `name` makes `run` record a score greater by exactly 1
for `name` and the same score as before for every other identifier. -/
theorem C12_one_more_if_adds_one (limit : Int) (Defs : Ident → Option Object)
    (files files1 before after : Forest) (name : Ident) (pos : Pos) (f : Func)
    (b1 b2 : List (Node × Bool))
    (hu : Nodes registered files =
      Nodes registered before ++ declEvents name pos (b1 ++ b2) ++ Nodes registered after)
    (hu1 : Nodes registered files1 =
      Nodes registered before ++
        declEvents name pos (b1 ++ (Node.IfStmt, true) :: (Node.IfStmt, false) :: b2) ++
        Nodes registered after)
    (hf : Defs name = some (Object.ofFunc f))
    (hb : ∀ e ∈ b1 ++ b2, e.1.isFuncDecl = false)
    (hbefore : before.resolved Defs = true) (hafter : after.resolved Defs = true)
    (hid : name ∉ after.funcDecls.map Prod.fst) :
    ∃ r r1 v, run limit Defs files = some r ∧ run limit Defs files1 = some r1 ∧
      r.acc name = some v ∧ r1.acc name = some (v + 1) ∧
      ∀ k, k ≠ name → r1.acc k = r.acc k := by
  have hb1 : ∀ e ∈ b1, e.1.isFuncDecl = false := fun e he => hb e (List.mem_append_left _ he)
  have hb2 : ∀ e ∈ b2, e.1.isFuncDecl = false := fun e he => hb e (List.mem_append_right _ he)
  have hbi : ∀ e ∈ b1 ++ (Node.IfStmt, true) :: (Node.IfStmt, false) :: b2,
      e.1.isFuncDecl = false := by
    intro e he
    rcases List.mem_append.mp he with he | he
    · exact hb1 e he
    · rcases List.mem_cons.mp he with he | he
      · rw [he]; rfl
      · rcases List.mem_cons.mp he with he | he
        · rw [he]; rfl
        · exact hb2 e he
  have htot : totalAfter 1 (b1 ++ (Node.IfStmt, true) :: (Node.IfStmt, false) :: b2) =
      totalAfter 1 (b1 ++ b2) + 1 := by
    rw [totalAfter_append, totalAfter_append]
    simp only [totalAfter, if_true, Bool.false_eq_true, if_false, add]
    exact totalAfter_shift _ 1 b2 hb2
  have hnot : name ∉ (exitLog 0 (Nodes registered after)).map (fun x => x.1) := by
    intro hmem
    have hp := (exitLog_Nodes_perm 0 after).map Prod.fst
    rw [List.map_map] at hp
    exact hid (hp.mem_iff.mp hmem)
  obtain ⟨r, hr, hacc⟩ :=
    run_around_decl limit Defs files before after name pos f (b1 ++ b2) hu hf hb hbefore hafter
  obtain ⟨r1, hr1, hacc1⟩ :=
    run_around_decl limit Defs files1 before after name pos f _ hu1 hf hbi hbefore hafter
  refine ⟨r, r1, totalAfter 1 (b1 ++ b2), hr, hr1, ?_, ?_, ?_⟩
  · rw [hacc]
    exact accOf_last _ _ _ name pos _ hnot
  · rw [hacc1, htot]
    exact accOf_last _ _ _ name pos _ hnot
  · intro k hk
    rw [hacc, hacc1, accOf_append, accOf_append]
    simp only [accOf]
    apply accOf_congr
    simp [hk]

/-- C12 (witness): in a file with `g` and `f`, an if statement is added at
the end of the body of `f`, which holds one `for` statement. -/
theorem C12_one_more_if_adds_one_witness :
    ∃ r r1 v, run 10 sampleDefs fileBefore = some r ∧ run 10 sampleDefs fileAfter = some r1 ∧
      r.acc { ptr := 1 } = some v ∧ r1.acc { ptr := 1 } = some (v + 1) ∧
      ∀ k, k ≠ { ptr := 1 } → r1.acc k = r.acc k :=
  C12_one_more_if_adds_one 10 sampleDefs fileBefore fileAfter
    (funcDecl { ptr := 2 } 200 switchBody Forest.nil) Forest.nil { ptr := 1 } 100
    { ptr := 1, name := "f" } [(Node.ForStmt, true), (Node.ForStmt, false)] []
    (by decide) (by decide) (by decide) (by decide) (by decide) (by decide) (by decide)

/-! ## Function literals -/

/-- C18 (counterexample): a function literal is not a registered node and
`add` leaves a running total of 2 at 2 on it, not at 1; the function
`func f() { if x { }; g := func() { if y { } } }` scores 3, the if statement
before the literal included, not 2. -/
theorem C18_literal_counterexample :
    registered Node.FuncLit = false ∧
    add 2 Node.FuncLit = 2 ∧
    add 2 Node.FuncLit ≠ 1 ∧
    (run 10 sampleDefs (funcDecl { ptr := 1 } 100 ifThenLiteral Forest.nil)).map
      (fun s => s.acc { ptr := 1 }) = some (some 3) ∧
    (run 10 sampleDefs (funcDecl { ptr := 1 } 100 ifThenLiteral Forest.nil)).map
      (fun s => s.acc { ptr := 1 }) ≠ some (some 2) := by
  refine ⟨rfl, rfl, by decide, by decide, by decide⟩

/-- C18 (amended): a function literal is not delivered to the callback and
`add` leaves the running total unchanged on it; for a function declaration
whose events are `b1`, then the subtree of a function literal, then `b2`
(with no function declaration inside), the walk succeeds and the recorded
score is the total accumulated before the literal, plus the decision points
inside the literal, plus what `b2` adds: nothing is discarded. -/
theorem C18_function_literal_keeps_total (limit : Int) (Defs : Ident → Option Object)
    (s0 : State) (name : Ident) (pos : Pos) (f : Func) (b1 b2 : List (Node × Bool))
    (lit : Forest)
    (hf : Defs name = some (Object.ofFunc f))
    (hb1 : ∀ e ∈ b1, e.1.isFuncDecl = false) (hb2 : ∀ e ∈ b2, e.1.isFuncDecl = false)
    (hlit : lit.count Node.isFuncDecl = 0) :
    registered Node.FuncLit = false ∧
    add (totalAfter 1 b1) Node.FuncLit = totalAfter 1 b1 ∧
    ∃ s1, runEvents limit Defs s0
        (declEvents name pos
          (b1 ++ Nodes registered (Forest.cons Node.FuncLit lit Forest.nil) ++ b2)) = some s1 ∧
      s1.acc name = some (totalAfter 1 b1 + (lit.count Node.isIf : Int)
        + (lit.count Node.isFor : Int) + (lit.count Node.isComm : Int) + (lit.caseValues : Int)
        + (lit.count Node.isLogical : Int) + totalAfter 0 b2) := by
  refine ⟨rfl, rfl, ?_⟩
  have hcount : (Forest.cons Node.FuncLit lit Forest.nil).count Node.isFuncDecl = 0 := by
    simp [Forest.count, Node.isFuncDecl, hlit]
  have hbody : ∀ e ∈ b1 ++ Nodes registered (Forest.cons Node.FuncLit lit Forest.nil) ++ b2,
      e.1.isFuncDecl = false := by
    intro e he
    rcases List.mem_append.mp he with he | he
    · rcases List.mem_append.mp he with he | he
      · exact hb1 e he
      · exact count_eq_zero_of_mem_Nodes registered Node.isFuncDecl _ hcount e he
    · exact hb2 e he
  have hlog := exitLog_declEvents s0.c name pos _ hbody
  have hres : ∀ x ∈ exitLog s0.c (declEvents name pos
      (b1 ++ Nodes registered (Forest.cons Node.FuncLit lit Forest.nil) ++ b2)),
      ∃ g, Defs x.1 = some (Object.ofFunc g) := by
    intro x hx
    rw [hlog] at hx
    rw [List.mem_singleton.mp hx]
    exact ⟨f, hf⟩
  refine ⟨_, runEvents_eq limit Defs s0 _ hres, ?_⟩
  simp only
  rw [hlog]
  have hacc := accOf_last s0.acc [] [] name pos
    (totalAfter 1 (b1 ++ Nodes registered (Forest.cons Node.FuncLit lit Forest.nil) ++ b2))
    (by simp)
  rw [List.nil_append] at hacc
  rw [hacc, totalAfter_append, totalAfter_append, totalAfter_Nodes _ _ hcount]
  have hshift := totalAfter_shift 0
    (totalAfter 1 b1 + ((Forest.cons Node.FuncLit lit Forest.nil).count Node.isIf : Int)
      + ((Forest.cons Node.FuncLit lit Forest.nil).count Node.isFor : Int)
      + ((Forest.cons Node.FuncLit lit Forest.nil).count Node.isComm : Int)
      + ((Forest.cons Node.FuncLit lit Forest.nil).caseValues : Int)
      + ((Forest.cons Node.FuncLit lit Forest.nil).count Node.isLogical : Int)) b2 hb2
  rw [zero_add] at hshift
  rw [hshift]
  simp [Forest.count, Forest.caseValues, Node.listed, Node.isIf, Node.isFor, Node.isComm,
    Node.isLogical]
  ring

/-- C18 (witness): one if statement before a function literal whose body
holds a `for` statement and an if statement: the recorded score is
2 + 2 + 0 = 4. -/
theorem C18_function_literal_keeps_total_witness :
    registered Node.FuncLit = false ∧
    add (totalAfter 1 [(Node.IfStmt, true), (Node.IfStmt, false)]) Node.FuncLit =
      totalAfter 1 [(Node.IfStmt, true), (Node.IfStmt, false)] ∧
    ∃ s1, runEvents 10 sampleDefs State.init
        (declEvents { ptr := 1 } 100
          ([(Node.IfStmt, true), (Node.IfStmt, false)] ++
            Nodes registered (Forest.cons Node.FuncLit
              (Forest.cons (Node.Other "BlockStmt") forThenIf Forest.nil) Forest.nil) ++ []))
          = some s1 ∧
      s1.acc { ptr := 1 } = some 4 :=
  C18_function_literal_keeps_total 10 sampleDefs State.init { ptr := 1 } 100
    { ptr := 1, name := "f" } [(Node.IfStmt, true), (Node.IfStmt, false)] []
    (Forest.cons (Node.Other "BlockStmt") forThenIf Forest.nil)
    (by decide) (by decide) (by decide) (by decide)

end Cyclomatic
